import Mathlib

/-! Verification of the commodity market simulator core.

A shallow embedding of the core data structures and operations of the
`market_sim` C++ code base, together with theorems settling the claims of
its natural-language specification.

Conventions of the embedding:
* C++ `double` is modelled as `ℚ` where the code performs only field
  arithmetic and comparisons (order book, agents, clock, news), and as `ℝ`
  where `sqrt` is involved (instrument price dynamics and volatility).
* `int64_t` quantities are `Int`; `uint64_t` timestamps are `Nat`, with the
  one wrap-around subtraction (`now - timestamp` for order expiry) modelled
  explicitly modulo `2 ^ 64`.
* `std::map` is modelled as an association list with unique keys; iteration
  order only matters for the best-price caches, where the C++ code reads the
  extreme key, which is modelled directly by selecting the extreme key.
* `std::priority_queue` is modelled as a plain list with an extraction
  function returning the maximum element under the C++ comparator; for
  elements the comparator considers equivalent the C++ container leaves the
  order unspecified, and the extraction here deterministically prefers the
  element appearing earliest in the list.
-/

set_option linter.unusedVariables false

namespace MarketSim

/-! ## Basic order types (`src/core/Types.hpp`) -/

inductive OrderSide where
  | BUY
  | SELL
deriving DecidableEq, Repr

inductive OrderType where
  | MARKET
  | LIMIT
deriving DecidableEq, Repr

/-- `Order` from `Types.hpp`: `price` is a C++ double (here `ℚ`),
`quantity` an `int64_t` (here `Int`), ids and timestamps unsigned. -/
structure Order where
  id : Nat
  agentId : Nat
  symbol : String
  side : OrderSide
  type : OrderType
  price : ℚ
  quantity : Int
  timestamp : Nat
deriving DecidableEq, Repr

/-- `Trade` from `Types.hpp` (the string agent-type tags are filled in by the
engine, not the order book, and are omitted). -/
structure Trade where
  buyOrderId : Nat
  sellOrderId : Nat
  buyerId : Nat
  sellerId : Nat
  symbol : String
  price : ℚ
  quantity : Int
  timestamp : Nat
deriving DecidableEq, Repr

/-! ## Association-list maps

`std::map` modelled as a list of key-value pairs with unique keys.
`insertA` is `map[k] = v` (overwrite or append), `eraseA` is `map.erase(k)`,
`lookupA` is `find`. -/

def lookupA {κ β : Type} [DecidableEq κ] : List (κ × β) → κ → Option β
  | [], _ => none
  | e :: rest, k => if e.1 = k then some e.2 else lookupA rest k

def insertA {κ β : Type} [DecidableEq κ] : List (κ × β) → κ → β → List (κ × β)
  | [], k, v => [(k, v)]
  | e :: rest, k, v => if e.1 = k then (k, v) :: rest else e :: insertA rest k v

def eraseA {κ β : Type} [DecidableEq κ] (m : List (κ × β)) (k : κ) : List (κ × β) :=
  m.filter (fun e => decide (e.1 ≠ k))

theorem lookupA_insertA_self {κ β : Type} [DecidableEq κ]
    (m : List (κ × β)) (k : κ) (v : β) : lookupA (insertA m k v) k = some v := by
  induction m with
  | nil => simp [insertA, lookupA]
  | cons e rest ih =>
    by_cases h : e.1 = k
    · simp [insertA, lookupA, h]
    · simp [insertA, lookupA, h, ih]

theorem lookupA_insertA_ne {κ β : Type} [DecidableEq κ]
    (m : List (κ × β)) (k k' : κ) (v : β) (hne : k ≠ k') :
    lookupA (insertA m k v) k' = lookupA m k' := by
  induction m with
  | nil => simp [insertA, lookupA, hne]
  | cons e rest ih =>
    by_cases h : e.1 = k
    · simp [insertA, lookupA, h, hne]
    · simp [insertA, lookupA, h, ih]

theorem lookupA_eraseA_self {κ β : Type} [DecidableEq κ]
    (m : List (κ × β)) (k : κ) : lookupA (eraseA m k) k = none := by
  induction m with
  | nil => simp [eraseA, lookupA]
  | cons e rest ih =>
    by_cases h : e.1 = k
    · simpa [eraseA, h] using ih
    · simpa [eraseA, lookupA, h] using ih

theorem mem_insertA {κ β : Type} [DecidableEq κ]
    (m : List (κ × β)) (k : κ) (v : β) (e : κ × β) (he : e ∈ insertA m k v) :
    e = (k, v) ∨ e ∈ m := by
  induction m with
  | nil => simpa [insertA] using he
  | cons e₀ rest ih =>
    by_cases h : e₀.1 = k
    · simp only [insertA, if_pos h, List.mem_cons] at he
      rcases he with h1 | h2
      · exact Or.inl h1
      · exact Or.inr (List.mem_cons_of_mem _ h2)
    · simp only [insertA, if_neg h, List.mem_cons] at he
      rcases he with h1 | h2
      · exact Or.inr (by simp [h1])
      · rcases ih h2 with h3 | h4
        · exact Or.inl h3
        · exact Or.inr (List.mem_cons_of_mem _ h4)

theorem self_mem_insertA {κ β : Type} [DecidableEq κ]
    (m : List (κ × β)) (k : κ) (v : β) : (k, v) ∈ insertA m k v := by
  induction m with
  | nil => simp [insertA]
  | cons e rest ih =>
    by_cases h : e.1 = k
    · simp [insertA, h]
    · simp only [insertA, if_neg h, List.mem_cons]
      exact Or.inr ih

theorem mem_insertA_of_mem_ne {κ β : Type} [DecidableEq κ]
    (m : List (κ × β)) (k : κ) (v : β) (e : κ × β) (he : e ∈ m) (hne : e.1 ≠ k) :
    e ∈ insertA m k v := by
  induction m with
  | nil => simp at he
  | cons e₀ rest ih =>
    by_cases h : e₀.1 = k
    · simp only [insertA, if_pos h, List.mem_cons]
      rcases List.mem_cons.mp he with h1 | h2
      · exact absurd (h1 ▸ h) hne
      · exact Or.inr h2
    · simp only [insertA, if_neg h, List.mem_cons]
      rcases List.mem_cons.mp he with h1 | h2
      · exact Or.inl h1
      · exact Or.inr (ih h2)

/-! ## Priority-queue extraction

`extractTop lt l` returns the element of `l` maximal for the strict
comparison `lt` (`lt a b = true` meaning `a` has lower priority than `b`,
exactly the C++ comparator convention), together with the rest of the
list. -/

def extractTop (lt : Order → Order → Bool) : List Order → Option (Order × List Order)
  | [] => none
  | o :: rest =>
    match extractTop lt rest with
    | none => some (o, [])
    | some (m, rest') => if lt o m then some (m, o :: rest') else some (o, rest)

theorem extractTop_length (lt : Order → Order → Bool) :
    ∀ (l : List Order) (o : Order) (rest : List Order),
      extractTop lt l = some (o, rest) → rest.length + 1 = l.length := by
  intro l
  induction l with
  | nil => intro o rest h; simp [extractTop] at h
  | cons a t ih =>
    intro o rest h
    simp only [extractTop] at h
    cases ht : extractTop lt t with
    | none =>
      rw [ht] at h
      cases t with
      | nil =>
        simp only [Option.some.injEq, Prod.mk.injEq] at h
        simp [← h.2]
      | cons b t2 =>
        exfalso
        simp only [extractTop] at ht
        cases h2 : extractTop lt t2 with
        | none => rw [h2] at ht; simp at ht
        | some p => rw [h2] at ht; rcases p with ⟨m, r⟩; by_cases hlt : lt b m <;> simp [hlt] at ht
    | some p =>
      rcases p with ⟨m, rest'⟩
      rw [ht] at h
      by_cases hlt : lt a m
      · simp only [if_pos hlt, Option.some.injEq, Prod.mk.injEq] at h
        have := ih m rest' ht
        simp [← h.2, ← this]
      · simp only [if_neg hlt, Option.some.injEq, Prod.mk.injEq] at h
        simp [← h.2]

theorem extractTop_mem (lt : Order → Order → Bool) :
    ∀ (l : List Order) (o : Order) (rest : List Order),
      extractTop lt l = some (o, rest) → o ∈ l := by
  intro l
  induction l with
  | nil => intro o rest h; simp [extractTop] at h
  | cons a t ih =>
    intro o rest h
    simp only [extractTop] at h
    cases ht : extractTop lt t with
    | none =>
      rw [ht] at h
      simp only [Option.some.injEq, Prod.mk.injEq] at h
      simp [← h.1]
    | some p =>
      rcases p with ⟨m, rest'⟩
      rw [ht] at h
      by_cases hlt : lt a m
      · simp only [if_pos hlt, Option.some.injEq, Prod.mk.injEq] at h
        exact List.mem_cons_of_mem _ (h.1 ▸ ih m rest' ht)
      · simp only [if_neg hlt, Option.some.injEq, Prod.mk.injEq] at h
        simp [← h.1]

/-! ## The order book (`src/core/OrderBook.cpp`)

The book state carries the two priority queues, the lazy-cancellation map
`activeOrders_`, the two best-price caches and the two id-to-price indices,
exactly as in `OrderBook.hpp`.  The simulated clock is external state in the
C++ code (a pointer), so the current timestamp is a parameter of the
operations that read it. -/

structure Book where
  symbol : String
  bids : List Order
  asks : List Order
  active : List (Nat × Bool)
  bestBidByPrice : List (ℚ × Nat)
  bestAskByPrice : List (ℚ × Nat)
  orderIdToBidPrice : List (Nat × ℚ)
  orderIdToAskPrice : List (Nat × ℚ)
  maxOrderAgeMs : Nat
deriving DecidableEq, Repr

def emptyBook (symbol : String) : Book :=
  ⟨symbol, [], [], [], [], [], [], [], 172800000⟩

/-- `BidComparator` from `OrderBook.hpp`: `bidLt a b` iff `a` has lower
priority than `b` (lower price, or same price and later timestamp). -/
def bidLt (a b : Order) : Bool :=
  if a.price ≠ b.price then decide (a.price < b.price) else decide (b.timestamp < a.timestamp)

/-- `AskComparator` from `OrderBook.hpp`: lower priority means higher price,
or same price and later timestamp. -/
def askLt (a b : Order) : Bool :=
  if a.price ≠ b.price then decide (b.price < a.price) else decide (b.timestamp < a.timestamp)

/-- `activeOrders_[id]` read with the `std::map` default of `false`. -/
def isActive (act : List (Nat × Bool)) (id : Nat) : Bool :=
  (lookupA act id).getD false

/-- `uint64_t` subtraction `a - b`, wrapping modulo `2 ^ 64`. -/
def sub64 (a b : Nat) : Nat :=
  (a % 2 ^ 64 + (2 ^ 64 - b % 2 ^ 64)) % 2 ^ 64

/-- The expiry test of `matchOrders`: `(now − timestamp) > maxOrderAgeMs_`
in `uint64_t` arithmetic. -/
def isExpired (now maxAge : Nat) (o : Order) : Bool :=
  decide (maxAge < sub64 now o.timestamp)

/-- An order the matching loop skips: cancelled or expired. -/
def stale (now maxAge : Nat) (act : List (Nat × Bool)) (o : Order) : Bool :=
  !isActive act o.id || isExpired now maxAge o

/-- The order copy made at the top of `OrderBook::addOrder`: a fresh
monotone id when the incoming id is zero, and the current (simulated)
timestamp. -/
def stampOrder (o : Order) (now nextId : Nat) : Order :=
  { o with id := if o.id = 0 then nextId else o.id, timestamp := now }

/-- `OrderBook::addOrder`: assign a fresh id when the incoming id is zero,
stamp the current (simulated) timestamp, mark active, enqueue, and record the
id at its price level in the best-price cache unless the level is already
present.  `nextId` models the static `nextOrderId_` counter; the updated
counter is returned. -/
def addOrder (b : Book) (now nextId : Nat) (o : Order) : Book × Nat :=
  let o' := stampOrder o now nextId
  let nid := if o.id = 0 then nextId + 1 else nextId
  let act := insertA b.active o'.id true
  if o'.side = OrderSide.BUY then
    let bbp := match lookupA b.bestBidByPrice o'.price with
      | some _ => b.bestBidByPrice
      | none => insertA b.bestBidByPrice o'.price o'.id
    ({ b with bids := b.bids ++ [o'], active := act,
              orderIdToBidPrice := insertA b.orderIdToBidPrice o'.id o'.price,
              bestBidByPrice := bbp }, nid)
  else
    let bap := match lookupA b.bestAskByPrice o'.price with
      | some _ => b.bestAskByPrice
      | none => insertA b.bestAskByPrice o'.price o'.id
    ({ b with asks := b.asks ++ [o'], active := act,
              orderIdToAskPrice := insertA b.orderIdToAskPrice o'.id o'.price,
              bestAskByPrice := bap }, nid)

/-- `OrderBook::cancelOrder`: lazily mark inactive, and scrub the id from the
price indices and (when it is the cached id of its level) the best-price
caches. -/
def cancelOrder (b : Book) (id : Nat) : Book × Bool :=
  match lookupA b.active id with
  | some true =>
    let act := insertA b.active id false
    let bidStep : List (Nat × ℚ) × List (ℚ × Nat) :=
      match lookupA b.orderIdToBidPrice id with
      | some price =>
        (eraseA b.orderIdToBidPrice id,
         if lookupA b.bestBidByPrice price = some id then eraseA b.bestBidByPrice price
         else b.bestBidByPrice)
      | none => (b.orderIdToBidPrice, b.bestBidByPrice)
    let askStep : List (Nat × ℚ) × List (ℚ × Nat) :=
      match lookupA b.orderIdToAskPrice id with
      | some price =>
        (eraseA b.orderIdToAskPrice id,
         if lookupA b.bestAskByPrice price = some id then eraseA b.bestAskByPrice price
         else b.bestAskByPrice)
      | none => (b.orderIdToAskPrice, b.bestAskByPrice)
    ({ b with active := act,
              orderIdToBidPrice := bidStep.1, bestBidByPrice := bidStep.2,
              orderIdToAskPrice := askStep.1, bestAskByPrice := askStep.2 }, true)
  | _ => (b, false)

/-- The execution-price rule of `matchOrders` (lines 127-142): the
earlier-timestamped side's price, overridden when a side is a market
order. -/
def execPriceFor (bid ask : Order) : ℚ :=
  let p := if bid.timestamp < ask.timestamp then bid.price else ask.price
  if bid.type = OrderType.MARKET then ask.price
  else if ask.type = OrderType.MARKET then bid.price
  else p

/-- The purge loop at the top of `matchOrders`: pop cancelled or expired
orders off the front of one queue, marking them inactive.  The loop pops one
element per iteration, so it runs at most `l.length` times; the `fuel`
argument makes the recursion structural (and hence kernel-computable), and
the wrapper `purgeSide` supplies more than enough fuel, so the `fuel = 0`
base case is never reached. -/
def purgeSideF (now maxAge : Nat) (lt : Order → Order → Bool) :
    Nat → List Order → List (Nat × Bool) → List Order × List (Nat × Bool)
  | 0, l, act => (l, act)
  | fuel + 1, l, act =>
    match extractTop lt l with
    | none => (l, act)
    | some (top, rest) =>
      if stale now maxAge act top then
        purgeSideF now maxAge lt fuel rest (insertA act top.id false)
      else (l, act)

def purgeSide (now maxAge : Nat) (lt : Order → Order → Bool)
    (l : List Order) (act : List (Nat × Bool)) : List Order × List (Nat × Bool) :=
  purgeSideF now maxAge lt (l.length + 1) l act

/-- The main matching loop of `matchOrders` (lines 106-190): skip stale
orders, stop when both tops are limits with `bid.price < ask.price`,
otherwise emit a trade at `execPriceFor`, pop both tops, scrub the caches,
re-push residual quantity, and deactivate fully filled orders. -/
def matchLoopF (now : Nat) : Nat → Book → List Trade → List Trade × Book
  | 0, b, acc => (acc, b)
  | fuel + 1, b, acc =>
    match extractTop bidLt b.bids with
    | none => (acc, b)
    | some (bid, restB) =>
      match extractTop askLt b.asks with
      | none => (acc, b)
      | some (ask, restA) =>
        if stale now b.maxOrderAgeMs b.active bid then
          matchLoopF now fuel { b with bids := restB, active := insertA b.active bid.id false } acc
        else if stale now b.maxOrderAgeMs b.active ask then
          matchLoopF now fuel { b with asks := restA, active := insertA b.active ask.id false } acc
        else if bid.price < ask.price ∧ bid.type = OrderType.LIMIT ∧ ask.type = OrderType.LIMIT then
          (acc, b)
        else
          let execQty := min bid.quantity ask.quantity
          let trade : Trade :=
            { buyOrderId := bid.id, sellOrderId := ask.id, buyerId := bid.agentId,
              sellerId := ask.agentId, symbol := b.symbol, price := execPriceFor bid ask,
              quantity := execQty, timestamp := now }
          let bbp := eraseA b.bestBidByPrice bid.price
          let bap := eraseA b.bestAskByPrice ask.price
          let bip := eraseA b.orderIdToBidPrice bid.id
          let aip := eraseA b.orderIdToAskPrice ask.id
          matchLoopF now fuel
            { b with
              bids := if execQty < bid.quantity then
                        { bid with quantity := bid.quantity - execQty } :: restB else restB,
              asks := if execQty < ask.quantity then
                        { ask with quantity := ask.quantity - execQty } :: restA else restA,
              active :=
                (fun a1 => if execQty < ask.quantity then a1 else insertA a1 ask.id false)
                  (if execQty < bid.quantity then b.active else insertA b.active bid.id false),
              bestBidByPrice := if execQty < bid.quantity then insertA bbp bid.price bid.id else bbp,
              bestAskByPrice := if execQty < ask.quantity then insertA bap ask.price ask.id else bap,
              orderIdToBidPrice := if execQty < bid.quantity then insertA bip bid.id bid.price else bip,
              orderIdToAskPrice := if execQty < ask.quantity then insertA aip ask.id ask.price else aip }
            (acc ++ [trade])

/-- Each iteration of the loop in `matchOrders` permanently removes at least
one order from the two queues (a trade pops both tops and re-pushes at most
one residual, since the executed quantity is the minimum of the two), so
`bids.length + asks.length` iterations always suffice; `matchLoop` runs the
fueled loop with that much fuel plus one. -/
def matchLoop (now : Nat) (b : Book) (acc : List Trade) : List Trade × Book :=
  matchLoopF now (b.bids.length + b.asks.length + 1) b acc

/-- `OrderBook::matchOrders`: purge both queue tops, then run the matching
loop; returns the trades and the updated book. -/
def matchOrders (now : Nat) (b : Book) : List Trade × Book :=
  let pb := purgeSide now b.maxOrderAgeMs bidLt b.bids b.active
  let pa := purgeSide now b.maxOrderAgeMs askLt b.asks pb.2
  matchLoop now { b with bids := pb.1, asks := pa.1, active := pa.2 } []

/-! ## Best-price queries (`OrderBook.cpp` lines 195-271)

`getBestAsk` uses `Option ℚ` where the C++ code uses the sentinel
`std::numeric_limits<double>::max()`: `none` is the sentinel.  The
`const_cast` cache maintenance performed by the C++ getters (dropping stale
entries, rebuilding an entry from the scan) never changes the value any
getter returns, so the getters are modelled as pure functions. -/

/-- `begin()` of `std::map<Price, OrderId, std::greater<Price>>`: the entry
with the greatest key. -/
def maxKeyEntry : List (ℚ × Nat) → Option (ℚ × Nat)
  | [] => none
  | e :: rest =>
    match maxKeyEntry rest with
    | none => some e
    | some m => if e.1 < m.1 then some m else some e

/-- `begin()` of `std::map<Price, OrderId>`: the entry with the least key. -/
def minKeyEntry : List (ℚ × Nat) → Option (ℚ × Nat)
  | [] => none
  | e :: rest =>
    match minKeyEntry rest with
    | none => some e
    | some m => if m.1 < e.1 then some m else some e

theorem maxKeyEntry_mem : ∀ (l : List (ℚ × Nat)) (e : ℚ × Nat), maxKeyEntry l = some e → e ∈ l := by
  intro l
  induction l with
  | nil => intro e h; simp [maxKeyEntry] at h
  | cons a t ih =>
    intro e h
    simp only [maxKeyEntry] at h
    cases ht : maxKeyEntry t with
    | none => rw [ht] at h; simp only [Option.some.injEq] at h; simp [← h]
    | some m =>
      rw [ht] at h
      by_cases hlt : a.1 < m.1
      · simp only [if_pos hlt, Option.some.injEq] at h
        exact List.mem_cons_of_mem _ (h ▸ ih m ht)
      · simp only [if_neg hlt, Option.some.injEq] at h
        simp [← h]

theorem minKeyEntry_mem : ∀ (l : List (ℚ × Nat)) (e : ℚ × Nat), minKeyEntry l = some e → e ∈ l := by
  intro l
  induction l with
  | nil => intro e h; simp [minKeyEntry] at h
  | cons a t ih =>
    intro e h
    simp only [minKeyEntry] at h
    cases ht : minKeyEntry t with
    | none => rw [ht] at h; simp only [Option.some.injEq] at h; simp [← h]
    | some m =>
      rw [ht] at h
      by_cases hlt : m.1 < a.1
      · simp only [if_pos hlt, Option.some.injEq] at h
        exact List.mem_cons_of_mem _ (h ▸ ih m ht)
      · simp only [if_neg hlt, Option.some.injEq] at h
        simp [← h]

theorem length_filter_lt_of_mem {α : Type} (p : α → Bool) :
    ∀ (l : List α) (x : α), x ∈ l → p x = false → (l.filter p).length < l.length := by
  intro l
  induction l with
  | nil => intro x hx hpx; simp at hx
  | cons a t ih =>
    intro x hx hpx
    rcases List.mem_cons.mp hx with h1 | h2
    · subst h1
      rw [List.filter_cons_of_neg (by simp [hpx])]
      have := List.length_filter_le p t
      simpa using Nat.lt_succ_of_le this
    · by_cases hpa : p a = true
      · rw [List.filter_cons_of_pos hpa]
        simpa using Nat.succ_lt_succ (ih x h2 hpx)
      · rw [List.filter_cons_of_neg (by simpa using hpa)]
        exact Nat.lt_succ_of_lt (ih x h2 hpx)

theorem length_eraseA_lt {β : Type} (m : List (ℚ × β)) (e : ℚ × β)
    (he : e ∈ m) : (eraseA m e.1).length < m.length :=
  length_filter_lt_of_mem _ m e he (by simp)

/-- The cache loop of `getBestBidUnlocked`: read the greatest price level; if
its cached order is active return the price, otherwise drop the stale entry
and retry.  Returns `none` when the cache runs out.  Each iteration erases
one entry, so `cache.length` iterations suffice; the `fuel` argument makes
the recursion structural, and the wrapper supplies enough fuel that the
`fuel = 0` base case is never reached. -/
def cacheBestBidF (act : List (Nat × Bool)) : Nat → List (ℚ × Nat) → Option ℚ
  | 0, _ => none
  | fuel + 1, cache =>
    match maxKeyEntry cache with
    | none => none
    | some e =>
      if isActive act e.2 then some e.1
      else cacheBestBidF act fuel (eraseA cache e.1)

def cacheBestBid (act : List (Nat × Bool)) (cache : List (ℚ × Nat)) : Option ℚ :=
  cacheBestBidF act (cache.length + 1) cache

/-- The cache loop of `getBestAskUnlocked` (least price level first). -/
def cacheBestAskF (act : List (Nat × Bool)) : Nat → List (ℚ × Nat) → Option ℚ
  | 0, _ => none
  | fuel + 1, cache =>
    match minKeyEntry cache with
    | none => none
    | some e =>
      if isActive act e.2 then some e.1
      else cacheBestAskF act fuel (eraseA cache e.1)

def cacheBestAsk (act : List (Nat × Bool)) (cache : List (ℚ × Nat)) : Option ℚ :=
  cacheBestAskF act (cache.length + 1) cache

/-- The fallback scan of the getters: pop a copy of the queue until an
active order is found. -/
def scanBestF (act : List (Nat × Bool)) (lt : Order → Order → Bool) :
    Nat → List Order → Option ℚ
  | 0, _ => none
  | fuel + 1, l =>
    match extractTop lt l with
    | none => none
    | some (o, rest) =>
      if isActive act o.id then some o.price else scanBestF act lt fuel rest

def scanBest (act : List (Nat × Bool)) (lt : Order → Order → Bool)
    (l : List Order) : Option ℚ :=
  scanBestF act lt (l.length + 1) l

/-- `getBestBidUnlocked`: cached best, else scan, else `0`. -/
def getBestBid (b : Book) : ℚ :=
  match cacheBestBid b.active b.bestBidByPrice with
  | some p => p
  | none => (scanBest b.active bidLt b.bids).getD 0

/-- `getBestAskUnlocked`: cached best, else scan, else the `DBL_MAX`
sentinel (`none`). -/
def getBestAsk (b : Book) : Option ℚ :=
  match cacheBestAsk b.active b.bestAskByPrice with
  | some p => some p
  | none => scanBest b.active askLt b.asks

/-- `getSpreadUnlocked`: `ask − bid` when `bid > 0` and the ask is not the
sentinel, else `0`. -/
def getSpread (b : Book) : ℚ :=
  match getBestAsk b with
  | some a => if 0 < getBestBid b then a - getBestBid b else 0
  | none => 0

/-- `getMidPriceUnlocked`: the average when both sides report, else the
reporting side, else `0`. -/
def getMidPrice (b : Book) : ℚ :=
  match getBestAsk b with
  | some a => if 0 < getBestBid b then (getBestBid b + a) / 2 else a
  | none => if 0 < getBestBid b then getBestBid b else 0

/-! ## Matching: helper lemmas for the one-resting-order scenario -/

theorem sub64_eq_sub (now ts : Nat) (h1 : ts ≤ now) (h2 : now < 2 ^ 64) :
    sub64 now ts = now - ts := by
  have hts : ts < 2 ^ 64 := lt_of_le_of_lt h1 h2
  unfold sub64
  rw [Nat.mod_eq_of_lt h2, Nat.mod_eq_of_lt hts]
  have h3 : now + (2 ^ 64 - ts) = (now - ts) + 2 ^ 64 := by omega
  rw [h3, Nat.add_mod_right, Nat.mod_eq_of_lt (by omega)]

/-- An active order whose (in-range) age is within the expiry bound is not
skipped by the matching loop. -/
theorem stale_false (now maxAge : Nat) (act : List (Nat × Bool)) (o : Order)
    (hact : isActive act o.id = true) (h1 : o.timestamp ≤ now) (h2 : now < 2 ^ 64)
    (h3 : now - o.timestamp ≤ maxAge) : stale now maxAge act o = false := by
  simp only [stale, hact, isExpired, sub64_eq_sub now o.timestamp h1 h2, Bool.not_true,
    Bool.false_or, decide_eq_false_iff_not, not_lt]
  exact h3

/-- The purge loop leaves a queue alone when its top order is live. -/
theorem purgeSide_eq_of_top_fresh (now maxAge : Nat) (lt : Order → Order → Bool)
    (l : List Order) (act : List (Nat × Bool)) (top : Order) (rest : List Order)
    (h : extractTop lt l = some (top, rest))
    (hs : stale now maxAge act top = false) :
    purgeSide now maxAge lt l act = (l, act) := by
  unfold purgeSide
  cases l with
  | nil => simp [extractTop] at h
  | cons a t => simp [purgeSideF, h, hs]

theorem matchLoopF_bids_nil (now fuel : Nat) (b : Book) (acc : List Trade)
    (h : b.bids = []) : matchLoopF now fuel b acc = (acc, b) := by
  cases fuel with
  | zero => simp [matchLoopF]
  | succ n => simp [matchLoopF, h, extractTop]

theorem matchLoopF_asks_nil (now fuel : Nat) (b : Book) (acc : List Trade)
    (h : b.asks = []) : matchLoopF now fuel b acc = (acc, b) := by
  cases fuel with
  | zero => simp [matchLoopF]
  | succ n =>
    simp only [matchLoopF, h]
    cases hb : extractTop bidLt b.bids with
    | none => simp
    | some p => simp [extractTop]

/-- A book holding exactly one live bid and one live ask that are allowed to
match produces exactly the one trade priced by `execPriceFor`. -/
theorem matchLoop_single (now : Nat) (b : Book) (B A : Order)
    (hb : b.bids = [B]) (ha : b.asks = [A])
    (hsB : stale now b.maxOrderAgeMs b.active B = false)
    (hsA : stale now b.maxOrderAgeMs b.active A = false)
    (hcross : ¬(B.price < A.price ∧ B.type = OrderType.LIMIT ∧ A.type = OrderType.LIMIT)) :
    (matchLoop now b []).1 =
      [{ buyOrderId := B.id, sellOrderId := A.id, buyerId := B.agentId, sellerId := A.agentId,
         symbol := b.symbol, price := execPriceFor B A, quantity := min B.quantity A.quantity,
         timestamp := now }] := by
  have eB : extractTop bidLt b.bids = some (B, []) := by rw [hb]; rfl
  have eA : extractTop askLt b.asks = some (A, []) := by rw [ha]; rfl
  unfold matchLoop
  simp only [matchLoopF, eB, eA, hsB, hsA, Bool.false_eq_true, if_false, if_neg hcross,
    List.nil_append]
  by_cases hq : min B.quantity A.quantity < A.quantity
  · have hq2 : ¬ min B.quantity A.quantity < B.quantity := by omega
    rw [matchLoopF_bids_nil]
    simp [hq2]
  · rw [matchLoopF_asks_nil]
    simp [hq]

theorem matchOrders_single_cross (b : Book) (now : Nat) (B A : Order)
    (hb : b.bids = [B]) (ha : b.asks = [A])
    (hactB : isActive b.active B.id = true) (hactA : isActive b.active A.id = true)
    (htsB : B.timestamp ≤ now) (htsA : A.timestamp ≤ now) (hnow : now < 2 ^ 64)
    (hexpB : now - B.timestamp ≤ b.maxOrderAgeMs) (hexpA : now - A.timestamp ≤ b.maxOrderAgeMs)
    (hcross : ¬(B.price < A.price ∧ B.type = OrderType.LIMIT ∧ A.type = OrderType.LIMIT)) :
    (matchOrders now b).1 =
      [{ buyOrderId := B.id, sellOrderId := A.id, buyerId := B.agentId, sellerId := A.agentId,
         symbol := b.symbol, price := execPriceFor B A, quantity := min B.quantity A.quantity,
         timestamp := now }] := by
  have hsB := stale_false now b.maxOrderAgeMs b.active B hactB htsB hnow hexpB
  have hsA := stale_false now b.maxOrderAgeMs b.active A hactA htsA hnow hexpA
  unfold matchOrders
  rw [purgeSide_eq_of_top_fresh now b.maxOrderAgeMs bidLt b.bids b.active B [] (by rw [hb]; rfl) hsB]
  dsimp only
  rw [purgeSide_eq_of_top_fresh now b.maxOrderAgeMs askLt b.asks b.active A [] (by rw [ha]; rfl) hsA]
  exact matchLoop_single now b B A hb ha hsB hsA hcross

/-! ## Claim C1 -/

/-- C1: in an order book whose two sides hold exactly one live (active,
unexpired) order each, with the pair allowed to cross, `matchOrders` emits
exactly one trade, and its price is the resting (earlier-timestamped) side's
price when both orders are limits; in general the execution price of a match
is the earlier-timestamped side's price when both are limits, and the other
side's price when one of them is a market order. -/
theorem matchOrders_execution_price :
    (∀ (b : Book) (now : Nat) (B A : Order),
      b.bids = [B] → b.asks = [A] →
      isActive b.active B.id = true → isActive b.active A.id = true →
      B.timestamp ≤ now → A.timestamp ≤ now → now < 2 ^ 64 →
      now - B.timestamp ≤ b.maxOrderAgeMs → now - A.timestamp ≤ b.maxOrderAgeMs →
      B.type = OrderType.LIMIT → A.type = OrderType.LIMIT → A.price ≤ B.price →
      (matchOrders now b).1.length = 1 ∧
      (A.timestamp < B.timestamp → (matchOrders now b).1.map Trade.price = [A.price]) ∧
      (B.timestamp < A.timestamp → (matchOrders now b).1.map Trade.price = [B.price])) ∧
    (∀ bid ask : Order, bid.type = OrderType.LIMIT → ask.type = OrderType.LIMIT →
      (bid.timestamp < ask.timestamp → execPriceFor bid ask = bid.price) ∧
      (¬ bid.timestamp < ask.timestamp → execPriceFor bid ask = ask.price)) ∧
    (∀ bid ask : Order, bid.type = OrderType.MARKET → execPriceFor bid ask = ask.price) ∧
    (∀ bid ask : Order, bid.type = OrderType.LIMIT → ask.type = OrderType.MARKET →
      execPriceFor bid ask = bid.price) := by
  have hlim : ∀ bid ask : Order, bid.type = OrderType.LIMIT → ask.type = OrderType.LIMIT →
      (bid.timestamp < ask.timestamp → execPriceFor bid ask = bid.price) ∧
      (¬ bid.timestamp < ask.timestamp → execPriceFor bid ask = ask.price) := by
    intro bid ask hb ha
    constructor
    · intro hts
      simp [execPriceFor, hb, ha, hts]
    · intro hts
      simp [execPriceFor, hb, ha, hts]
  refine ⟨?_, hlim, ?_, ?_⟩
  · intro b now B A hb ha hactB hactA htsB htsA hnow hexpB hexpA hBlim hAlim hle
    have hcross : ¬(B.price < A.price ∧ B.type = OrderType.LIMIT ∧ A.type = OrderType.LIMIT) :=
      fun h => absurd h.1 (not_lt.mpr hle)
    have hone := matchOrders_single_cross b now B A hb ha hactB hactA htsB htsA hnow
      hexpB hexpA hcross
    refine ⟨by rw [hone]; rfl, ?_, ?_⟩
    · intro hts
      rw [hone]
      simp [(hlim B A hBlim hAlim).2 (by omega)]
    · intro hts
      rw [hone]
      simp [(hlim B A hBlim hAlim).1 hts]
  · intro bid ask hb
    simp [execPriceFor, hb]
  · intro bid ask hb ha
    simp [execPriceFor, hb, ha]

/-- A concrete resting bid (id 1, limit 105, stamped 40) and incoming ask
(id 2, limit 100, stamped 90), both active and unexpired at time 100. -/
def c1RestingBid : Order :=
  ⟨1, 10, "OIL", OrderSide.BUY, OrderType.LIMIT, 105, 7, 40⟩

def c1IncomingAsk : Order :=
  ⟨2, 20, "OIL", OrderSide.SELL, OrderType.LIMIT, 100, 5, 90⟩

def c1Book : Book :=
  { symbol := "OIL", bids := [c1RestingBid], asks := [c1IncomingAsk],
    active := [(1, true), (2, true)],
    bestBidByPrice := [((105 : ℚ), 1)], bestAskByPrice := [((100 : ℚ), 2)],
    orderIdToBidPrice := [(1, (105 : ℚ))], orderIdToAskPrice := [(2, (100 : ℚ))],
    maxOrderAgeMs := 172800000 }

theorem matchOrders_execution_price_witness :
    (matchOrders 100 c1Book).1.length = 1 ∧
    (matchOrders 100 c1Book).1.map Trade.price = [(105 : ℚ)] := by
  have h := matchOrders_execution_price.1 c1Book 100 c1RestingBid c1IncomingAsk
    rfl rfl (by decide) (by decide) (by decide) (by decide) (by decide) (by decide)
    (by decide) rfl rfl (by decide)
  exact ⟨h.1, h.2.2 (by decide)⟩

/-! ## The tradable instrument (`src/core/Commodity.cpp`)

Doubles are modelled as `ℝ` here because `applyTradePrice` and the
volatility estimate use `sqrt`.  The definitions are `noncomputable` only
because comparisons on `ℝ` are classical; they mirror the C++ control flow
exactly. -/

structure SupplyDemand where
  production : ℝ
  imports : ℝ
  exports : ℝ
  consumption : ℝ
  inventory : ℝ

/-- `SupplyDemand::getImbalance` from `Types.hpp` (lines 116-124). -/
noncomputable def SupplyDemand.getImbalance (sd : SupplyDemand) : ℝ :=
  let avg := (sd.production + sd.consumption) / 2
  if avg ≤ 0 then 0 else (sd.consumption - sd.production) / avg

structure Commodity where
  symbol : String
  name : String
  category : String
  price : ℝ
  volatility : ℝ
  dailyVolume : Int
  priceHistory : List ℝ
  supplyDemand : SupplyDemand
  baseProduction : ℝ
  baseConsumption : ℝ
  maxDailyMove : ℝ
  dayOpenPrice : ℝ
  circuitBroken : Bool
  impactDampening : ℝ
  priceFloor : ℝ
  supplyDecayRate : ℝ
  demandDecayRate : ℝ
  baseInventory : ℝ

/-- The new `(price, circuitBroken)` pair computed by `Commodity::setPrice`
(lines 36-46): non-positive input is replaced by the floor, then the move
from the day-open price is clamped to `maxDailyMove` (tripping the breaker)
when `dayOpenPrice > 0` and `maxDailyMove > 0`. -/
noncomputable def Commodity.setPriceValue (c : Commodity) (q : ℝ) : ℝ × Bool :=
  let p1 := if q ≤ 0 then c.priceFloor else q
  if 0 < c.dayOpenPrice ∧ 0 < c.maxDailyMove then
    if c.maxDailyMove < |(p1 - c.dayOpenPrice) / c.dayOpenPrice| then
      (c.dayOpenPrice *
        (1 + (if 0 < (p1 - c.dayOpenPrice) / c.dayOpenPrice then (1 : ℝ) else -1) * c.maxDailyMove),
       true)
    else (p1, c.circuitBroken)
  else (p1, c.circuitBroken)

/-- `Commodity::setPrice` (lines 36-54): store the clamped price, append it
to the history, and prune the history to `MAX_HISTORY = 1000` entries. -/
noncomputable def Commodity.setPrice (c : Commodity) (q : ℝ) : Commodity :=
  let pb := c.setPriceValue q
  let hist := c.priceHistory ++ [pb.1]
  { c with price := pb.1, circuitBroken := pb.2,
           priceHistory := if 1000 < hist.length then hist.drop 1 else hist }

/-- `markDayOpen` from `Commodity.hpp` (line 50). -/
def Commodity.markDayOpen (c : Commodity) : Commodity :=
  { c with dayOpenPrice := c.price }

/-- `resetCircuitBreaker` from `Commodity.hpp` (line 52). -/
def Commodity.resetCircuitBreaker (c : Commodity) : Commodity :=
  { c with circuitBroken := false }

/-- The impact weight of `Commodity::applyTradePrice` (line 64):
`min(0.5, impactDampening / max(1.0, sqrt(max(1, tradeQty))))`. -/
noncomputable def alphaOf (d : ℝ) (q : Int) : ℝ :=
  min (1 / 2) (d / max 1 (Real.sqrt ((max 1 q : Int) : ℝ)))

/-- `Commodity::applyTradePrice` (lines 56-67): no-op on non-positive trade
price or a tripped breaker; otherwise blend and route through `setPrice`. -/
noncomputable def Commodity.applyTradePrice (c : Commodity) (tradePrice : ℝ) (tradeQty : Int) :
    Commodity :=
  if tradePrice ≤ 0 then c
  else if c.circuitBroken then c
  else
    c.setPrice (c.price * (1 - alphaOf c.impactDampening tradeQty)
      + tradePrice * alphaOf c.impactDampening tradeQty)

theorem setPrice_price_eq (c : Commodity) (q : ℝ) :
    (c.setPrice q).price = (c.setPriceValue q).1 := rfl

theorem setPrice_broken_eq (c : Commodity) (q : ℝ) :
    (c.setPrice q).circuitBroken = (c.setPriceValue q).2 := rfl

theorem setPrice_dayOpen_eq (c : Commodity) (q : ℝ) :
    (c.setPrice q).dayOpenPrice = c.dayOpenPrice := rfl

theorem setPrice_floor_eq (c : Commodity) (q : ℝ) :
    (c.setPrice q).priceFloor = c.priceFloor := rfl

theorem setPrice_maxMove_eq (c : Commodity) (q : ℝ) :
    (c.setPrice q).maxDailyMove = c.maxDailyMove := rfl

/-! ## Claim C2 -/

/-- C2 (amended): with a positive day-open price and a positive
`maxDailyMove`, every `setPrice(q)` leaves the price within the daily band,
and the breaker is tripped after the call iff it was already tripped or the
effective input (`q`, with non-positive values replaced by the price floor)
lies outside the band.  (The original claim's "iff the input would have
violated the bound" fails because the breaker is sticky within a day; see
the counterexample.) -/
theorem setPrice_band_and_breaker (c : Commodity) (q : ℝ)
    (h0 : 0 < c.dayOpenPrice) (hm : 0 < c.maxDailyMove) :
    |(c.setPrice q).price - c.dayOpenPrice| / c.dayOpenPrice ≤ c.maxDailyMove ∧
    ((c.setPrice q).circuitBroken = true ↔
      (c.circuitBroken = true ∨
        c.maxDailyMove <
          |(if q ≤ 0 then c.priceFloor else q) - c.dayOpenPrice| / c.dayOpenPrice)) := by
  have hne : c.dayOpenPrice ≠ 0 := ne_of_gt h0
  rw [setPrice_price_eq, setPrice_broken_eq]
  unfold Commodity.setPriceValue
  rw [if_pos (⟨h0, hm⟩ : 0 < c.dayOpenPrice ∧ 0 < c.maxDailyMove)]
  set q1 : ℝ := if q ≤ 0 then c.priceFloor else q with hq1def
  have habs : |(q1 - c.dayOpenPrice) / c.dayOpenPrice|
      = |q1 - c.dayOpenPrice| / c.dayOpenPrice := by
    rw [abs_div, abs_of_pos h0]
  by_cases hclamp : c.maxDailyMove < |(q1 - c.dayOpenPrice) / c.dayOpenPrice|
  · rw [if_pos hclamp]
    dsimp only
    constructor
    · by_cases hs : 0 < (q1 - c.dayOpenPrice) / c.dayOpenPrice
      · rw [if_pos hs]
        have heq : c.dayOpenPrice * (1 + 1 * c.maxDailyMove) - c.dayOpenPrice
            = c.dayOpenPrice * c.maxDailyMove := by ring
        rw [heq, abs_of_pos (mul_pos h0 hm), mul_div_cancel_left₀ _ hne]
      · rw [if_neg hs]
        have heq : c.dayOpenPrice * (1 + (-1) * c.maxDailyMove) - c.dayOpenPrice
            = -(c.dayOpenPrice * c.maxDailyMove) := by ring
        rw [heq, abs_neg, abs_of_pos (mul_pos h0 hm), mul_div_cancel_left₀ _ hne]
    · exact iff_of_true rfl (Or.inr (habs ▸ hclamp))
  · rw [if_neg hclamp]
    dsimp only
    have hle : ¬ c.maxDailyMove < |q1 - c.dayOpenPrice| / c.dayOpenPrice := habs ▸ hclamp
    exact ⟨not_lt.mp hle, by simp [hle]⟩

/-- A commodity in its constructor state (`Commodity.cpp` lines 9-34) for
symbol OIL at price 100, with the default tunables of `Commodity.hpp`. -/
noncomputable def c2Start : Commodity :=
  { symbol := "OIL", name := "Crude Oil", category := "Energy",
    price := 100, volatility := 2 / 100, dailyVolume := 0, priceHistory := [100],
    supplyDemand := ⟨100, 0, 0, 100, 50⟩, baseProduction := 100, baseConsumption := 100,
    maxDailyMove := 15 / 100, dayOpenPrice := 0, circuitBroken := false,
    impactDampening := 1 / 2, priceFloor := 1 / 100, supplyDecayRate := 1 / 10,
    demandDecayRate := 1 / 10, baseInventory := 50 }

noncomputable def c2Open : Commodity := c2Start.markDayOpen

/-- C2, counterexample to the claim as stated: after `markDayOpen` at 100
(`maxDailyMove = 0.15`), `setPrice 200` trips the breaker; the subsequent
`setPrice 100` has an input inside the band, yet `circuitBroken` remains
true — so "`circuitBroken` iff the input violated the bound" is false. -/
theorem setPrice_breaker_iff_counterexample :
    (c2Open.setPrice 200).dayOpenPrice = 100 ∧
    (c2Open.setPrice 200).maxDailyMove = 15 / 100 ∧
    |(100 : ℝ) - 100| / 100 ≤ 15 / 100 ∧
    ((c2Open.setPrice 200).setPrice 100).circuitBroken = true := by
  refine ⟨rfl, rfl, by norm_num, ?_⟩
  have h1 : (c2Open.setPrice 200).circuitBroken = true := by
    rw [setPrice_broken_eq]
    unfold Commodity.setPriceValue
    norm_num [c2Open, c2Start, Commodity.markDayOpen, abs]
  rw [setPrice_broken_eq]
  unfold Commodity.setPriceValue
  have h2 : (c2Open.setPrice 200).dayOpenPrice = 100 := rfl
  have h3 : (c2Open.setPrice 200).maxDailyMove = 15 / 100 := rfl
  have h4 : (c2Open.setPrice 200).priceFloor = 1 / 100 := rfl
  rw [h1, h2, h3, h4]
  norm_num

theorem setPrice_band_and_breaker_witness :
    (0 : ℝ) < c2Open.dayOpenPrice ∧ (0 : ℝ) < c2Open.maxDailyMove ∧
    (|(c2Open.setPrice 110).price - c2Open.dayOpenPrice| / c2Open.dayOpenPrice
      ≤ c2Open.maxDailyMove) := by
  have h0 : (0 : ℝ) < c2Open.dayOpenPrice := by norm_num [c2Open, c2Start, Commodity.markDayOpen]
  have hm : (0 : ℝ) < c2Open.maxDailyMove := by norm_num [c2Open, c2Start, Commodity.markDayOpen]
  exact ⟨h0, hm, (setPrice_band_and_breaker c2Open 110 h0 hm).1⟩

/-! ## Claim C3 -/

/-- The code's `max(1.0, sqrt(max(1, qty)))` equals the spec's
`max(1, sqrt(qty))`. -/
theorem alphaOf_eq (d : ℝ) (q : Int) :
    alphaOf d q = min (1 / 2) (d / max 1 (Real.sqrt (q : ℝ))) := by
  unfold alphaOf
  rcases le_or_lt q 1 with h | h
  · rw [max_eq_left h]
    have hq : Real.sqrt (q : ℝ) ≤ 1 := by
      have hq1 : (q : ℝ) ≤ 1 := by exact_mod_cast h
      calc Real.sqrt (q : ℝ) ≤ Real.sqrt 1 := Real.sqrt_le_sqrt hq1
        _ = 1 := Real.sqrt_one
    rw [max_eq_left hq]
    norm_num [Real.sqrt_one]
  · rw [max_eq_right (le_of_lt h)]

/-- C3: `applyTradePrice` leaves the whole instrument state untouched when
the breaker is tripped or the execution price is non-positive; otherwise it
blends the current price toward the execution price with weight
`α = min(0.5, impactDampening / max(1, sqrt(execQty)))` and routes the
blended value through `setPrice`. -/
theorem applyTradePrice_spec :
    (∀ (c : Commodity) (tp : ℝ) (q : Int),
      c.circuitBroken = true ∨ tp ≤ 0 → c.applyTradePrice tp q = c) ∧
    (∀ (c : Commodity) (tp : ℝ) (q : Int),
      c.circuitBroken = false → 0 < tp →
      c.applyTradePrice tp q =
        c.setPrice
          (c.price * (1 - min (1 / 2) (c.impactDampening / max 1 (Real.sqrt (q : ℝ))))
            + tp * min (1 / 2) (c.impactDampening / max 1 (Real.sqrt (q : ℝ))))) := by
  constructor
  · intro c tp q h
    unfold Commodity.applyTradePrice
    rcases le_or_lt tp 0 with h2 | h2
    · rw [if_pos h2]
    · rcases h with h | h
      · rw [if_neg (not_le.mpr h2), if_pos h]
      · exact absurd h (not_le.mpr h2)
  · intro c tp q hcb htp
    unfold Commodity.applyTradePrice
    rw [if_neg (not_le.mpr htp), if_neg (by simp [hcb]), alphaOf_eq]

theorem applyTradePrice_spec_witness :
    c2Open.circuitBroken = false ∧ (0 : ℝ) < 110 ∧ (0 : ℝ) ≤ 0 ∧
    c2Open.applyTradePrice 110 10 =
      c2Open.setPrice
        (c2Open.price * (1 - min (1 / 2) (c2Open.impactDampening / max 1 (Real.sqrt ((10 : Int) : ℝ))))
          + 110 * min (1 / 2) (c2Open.impactDampening / max 1 (Real.sqrt ((10 : Int) : ℝ)))) ∧
    c2Open.applyTradePrice 0 5 = c2Open := by
  refine ⟨rfl, by norm_num, le_refl 0, ?_, ?_⟩
  · exact applyTradePrice_spec.2 c2Open 110 10 rfl (by norm_num)
  · exact applyTradePrice_spec.1 c2Open 0 5 (Or.inr (le_refl 0))

/-! ## Claim C4 -/

/-- A price-affecting call on the instrument: `setPrice` or
`applyTradePrice`. -/
inductive PriceOp where
  | set (q : ℝ)
  | trade (tp : ℝ) (q : Int)

noncomputable def runPriceOps (c : Commodity) : List PriceOp → Commodity
  | [] => c
  | PriceOp.set q :: rest => runPriceOps (c.setPrice q) rest
  | PriceOp.trade tp q :: rest => runPriceOps (c.applyTradePrice tp q) rest

theorem setPrice_price_pos (c : Commodity) (q : ℝ)
    (hf : 0 < c.priceFloor) (hm1 : c.maxDailyMove < 1) : 0 < (c.setPrice q).price := by
  rw [setPrice_price_eq]
  unfold Commodity.setPriceValue
  have hq1 : 0 < (if q ≤ 0 then c.priceFloor else q) := by
    split
    · exact hf
    · exact not_le.mp (by assumption)
  by_cases hg : 0 < c.dayOpenPrice ∧ 0 < c.maxDailyMove
  · rw [if_pos hg]
    by_cases hclamp : c.maxDailyMove <
        |((if q ≤ 0 then c.priceFloor else q) - c.dayOpenPrice) / c.dayOpenPrice|
    · rw [if_pos hclamp]
      by_cases hs : 0 < ((if q ≤ 0 then c.priceFloor else q) - c.dayOpenPrice) / c.dayOpenPrice
      · rw [if_pos hs]
        exact mul_pos hg.1 (by nlinarith [hg.2])
      · rw [if_neg hs]
        exact mul_pos hg.1 (by nlinarith)
    · rw [if_neg hclamp]
      exact hq1
  · rw [if_neg hg]
    exact hq1

theorem applyTradePrice_price_pos (c : Commodity) (tp : ℝ) (q : Int)
    (hp : 0 < c.price) (hf : 0 < c.priceFloor) (hm1 : c.maxDailyMove < 1) :
    0 < (c.applyTradePrice tp q).price := by
  unfold Commodity.applyTradePrice
  split_ifs with h1 h2
  · exact hp
  · exact hp
  · exact setPrice_price_pos _ _ hf hm1

theorem applyTradePrice_floor_eq (c : Commodity) (tp : ℝ) (q : Int) :
    (c.applyTradePrice tp q).priceFloor = c.priceFloor := by
  unfold Commodity.applyTradePrice
  split_ifs <;> rfl

theorem applyTradePrice_maxMove_eq (c : Commodity) (tp : ℝ) (q : Int) :
    (c.applyTradePrice tp q).maxDailyMove = c.maxDailyMove := by
  unfold Commodity.applyTradePrice
  split_ifs <;> rfl

/-- C4 (amended): with a positive price floor and `maxDailyMove < 1`, any
sequence of `setPrice`/`applyTradePrice` calls keeps a positive price
strictly positive; the original invariant `price ≥ priceFloor` fails because
`setPrice` raises only non-positive inputs to the floor and lets tiny
positive inputs through (see the counterexample). -/
theorem price_stays_positive (ops : List PriceOp) : ∀ (c : Commodity),
    0 < c.price → 0 < c.priceFloor → c.maxDailyMove < 1 →
    0 < (runPriceOps c ops).price := by
  induction ops with
  | nil => intro c hp hf hm; exact hp
  | cons op rest ih =>
    intro c hp hf hm
    cases op with
    | set q =>
      exact ih _ (setPrice_price_pos c q hf hm)
        (by rw [setPrice_floor_eq]; exact hf) (by rw [setPrice_maxMove_eq]; exact hm)
    | trade tp q =>
      exact ih _ (applyTradePrice_price_pos c tp q hp hf hm)
        (by rw [applyTradePrice_floor_eq]; exact hf)
        (by rw [applyTradePrice_maxMove_eq]; exact hm)

/-- C4, counterexample to the claim as stated: the constructor-state
instrument has `priceFloor = 0.01`, yet `setPrice 0.001` stores 0.001,
strictly below the floor. -/
theorem price_floor_counterexample :
    (c2Start.setPrice (1 / 1000)).price < c2Start.priceFloor := by
  rw [setPrice_price_eq]
  unfold Commodity.setPriceValue
  norm_num [c2Start]

theorem price_stays_positive_witness :
    (0 : ℝ) < c2Open.price ∧ (0 : ℝ) < c2Open.priceFloor ∧ c2Open.maxDailyMove < 1 ∧
    0 < (runPriceOps c2Open [PriceOp.set 5, PriceOp.trade 110 3]).price := by
  have h1 : (0 : ℝ) < c2Open.price := by norm_num [c2Open, c2Start, Commodity.markDayOpen]
  have h2 : (0 : ℝ) < c2Open.priceFloor := by norm_num [c2Open, c2Start, Commodity.markDayOpen]
  have h3 : c2Open.maxDailyMove < 1 := by norm_num [c2Open, c2Start, Commodity.markDayOpen]
  exact ⟨h1, h2, h3, price_stays_positive [PriceOp.set 5, PriceOp.trade 110 3] c2Open h1 h2 h3⟩

/-! ## The simulated clock (`src/core/SimClock.cpp`)

`tick()` advances `simTimeMs_` by `static_cast<Timestamp>(86400000.0 /
ticksPerDay_)`, i.e. the double quotient truncated toward zero.  For
`0 < ticksPerDay` that truncation equals natural-number division: the true
quotient is at most `86400000 < 2^27`, so the nearest double is within
relative error `2^-53` of it, an absolute error below `86400000 · 2^-53 <
2^-26`; the quotient's distance to the integers on either side is either `0`
or at least `1/ticksPerDay > 2^-26` whenever `ticksPerDay ≤ 86400000` (and
for larger `ticksPerDay` the quotient is below 1 with the same bound
against 1), so rounding to the nearest double never crosses an integer and
truncation agrees with `Nat` division. -/

structure SimClock where
  startTimeMs : Nat
  simTimeMs : Nat
  ticksPerDay : Nat
  tickInDay : Nat
  totalTicks : Nat

/-- `SimClock::initialize` with the parsed start date abstracted to its
epoch-millisecond value (date parsing is out of the core's scope). -/
def SimClock.init (startMs ticksPerDay : Nat) : SimClock :=
  ⟨startMs, startMs, ticksPerDay, 0, 0⟩

/-- `SimClock::tick` (lines 19-32). -/
def SimClock.tick (c : SimClock) : SimClock :=
  { c with totalTicks := c.totalTicks + 1,
           tickInDay := if c.ticksPerDay ≤ c.tickInDay + 1 then 0 else c.tickInDay + 1,
           simTimeMs := c.simTimeMs + 86400000 / c.ticksPerDay }

/-! ## Claim C6 -/

/-- C6: every `tick()` advances `simTimeMs` by the integer-truncated value
of `86_400_000 / ticksPerDay`, and `N` ticks after `initialize` advance it
by exactly `N` times that per-tick amount. -/
theorem tick_advances_simTime :
    (∀ c : SimClock, c.tick.simTimeMs = c.simTimeMs + 86400000 / c.ticksPerDay) ∧
    (∀ (startMs tpd n : Nat), 0 < tpd →
      (SimClock.tick^[n] (SimClock.init startMs tpd)).simTimeMs
        = startMs + n * (86400000 / tpd)) := by
  have hstep : ∀ c : SimClock, c.tick.simTimeMs = c.simTimeMs + 86400000 / c.ticksPerDay :=
    fun c => rfl
  refine ⟨hstep, ?_⟩
  have key : ∀ (n : Nat) (c : SimClock),
      (SimClock.tick^[n] c).simTimeMs = c.simTimeMs + n * (86400000 / c.ticksPerDay) := by
    intro n
    induction n with
    | zero => intro c; simp
    | succ k ih =>
      intro c
      rw [Function.iterate_succ_apply, ih c.tick]
      have h1 : c.tick.ticksPerDay = c.ticksPerDay := rfl
      rw [h1, hstep c]
      ring
  intro startMs tpd n hp
  rw [key n (SimClock.init startMs tpd)]
  rfl

theorem tick_advances_simTime_witness :
    0 < 7 ∧
    (SimClock.tick^[7] (SimClock.init 0 7)).simTimeMs = 0 + 7 * (86400000 / 7) ∧
    0 + 7 * (86400000 / 7) = 86399999 := by
  exact ⟨by norm_num, tick_advances_simTime.2 0 7 7 (by norm_num), by norm_num⟩

/-! ## Claim C7 -/

/-- Swapping the production and consumption levels of a supply/demand
state. -/
def SupplyDemand.swapPC (sd : SupplyDemand) : SupplyDemand :=
  { sd with production := sd.consumption, consumption := sd.production }

/-- C7: the imbalance is `(consumption − production) / ((production +
consumption)/2)` when the midpoint is positive and `0` otherwise, and
swapping production with consumption negates it. -/
theorem getImbalance_spec :
    (∀ sd : SupplyDemand, sd.getImbalance =
      if 0 < (sd.production + sd.consumption) / 2
      then (sd.consumption - sd.production) / ((sd.production + sd.consumption) / 2)
      else 0) ∧
    (∀ sd : SupplyDemand, sd.swapPC.getImbalance = - sd.getImbalance) := by
  constructor
  · intro sd
    unfold SupplyDemand.getImbalance
    by_cases h : (sd.production + sd.consumption) / 2 ≤ 0
    · rw [if_pos h, if_neg (not_lt.mpr h)]
    · rw [if_neg h, if_pos (not_le.mp h)]
  · intro sd
    unfold SupplyDemand.getImbalance SupplyDemand.swapPC
    dsimp only
    have hcomm : (sd.consumption + sd.production) / 2 = (sd.production + sd.consumption) / 2 := by
      ring
    rw [hcomm]
    by_cases h : (sd.production + sd.consumption) / 2 ≤ 0
    · rw [if_pos h, if_pos h]
      norm_num
    · rw [if_neg h, if_neg h]
      ring

/-! ## Agents (`src/agents/Agent.cpp`)

Agent cash and cost bases involve only field arithmetic, so doubles are
modelled as `ℚ` here, keeping the state decidable. -/

structure Position where
  symbol : String
  quantity : Int
  avgCost : ℚ
deriving DecidableEq, Repr

structure Agent where
  id : Nat
  cash : ℚ
  initialCash : ℚ
  portfolio : List (String × Position)
deriving DecidableEq, Repr

/-- `portfolio_[symbol]`: the stored position, or the value-initialised
default that `std::map::operator[]` creates. -/
def Agent.posOf (a : Agent) (symbol : String) : Position :=
  (lookupA a.portfolio symbol).getD ⟨"", 0, 0⟩

/-- `Agent::onFill` (lines 29-50).  On a buy fill: debit cash, grow the
position, recompute `avgCost` (zero when the new quantity is not positive)
and stamp the symbol.  Otherwise (a sell fill): credit cash, shrink the
position, and erase it when the quantity reaches exactly zero.  (The C++
code mutates the mapped value in place and then erases it; erasing directly
is equivalent.) -/
def Agent.onFill (a : Agent) (t : Trade) : Agent :=
  let cost : ℚ := t.price * (t.quantity : ℚ)
  if t.buyerId = a.id then
    let pos := a.posOf t.symbol
    let q1 := pos.quantity + t.quantity
    let totalCost := pos.avgCost * (pos.quantity : ℚ) + cost
    { a with cash := a.cash - cost,
             portfolio := insertA a.portfolio t.symbol
               ⟨t.symbol, q1, if 0 < q1 then totalCost / (q1 : ℚ) else 0⟩ }
  else
    let pos := a.posOf t.symbol
    let q1 := pos.quantity - t.quantity
    if q1 = 0 then
      { a with cash := a.cash + cost, portfolio := eraseA a.portfolio t.symbol }
    else
      { a with cash := a.cash + cost,
               portfolio := insertA a.portfolio t.symbol { pos with quantity := q1 } }

/-! ## Claim C8 -/

/-- C8 (amended): a buy fill debits cash by `price·quantity`, grows the
position by `quantity` and recomputes `avgCost` as the quantity-weighted
blend of the previous cost basis and the fill cost (zero when the new
quantity is not positive) — but the entry is retained even when the new
quantity is exactly zero; a sell fill credits cash by `price·quantity`,
shrinks the position by `quantity`, and erases the entry exactly when the
new quantity is zero. -/
theorem onFill_spec :
    (∀ (a : Agent) (t : Trade), t.buyerId = a.id →
      (a.onFill t).cash = a.cash - t.price * (t.quantity : ℚ) ∧
      lookupA (a.onFill t).portfolio t.symbol =
        some ⟨t.symbol, (a.posOf t.symbol).quantity + t.quantity,
              if 0 < (a.posOf t.symbol).quantity + t.quantity
              then ((a.posOf t.symbol).avgCost * ((a.posOf t.symbol).quantity : ℚ)
                      + t.price * (t.quantity : ℚ))
                    / (((a.posOf t.symbol).quantity + t.quantity : Int) : ℚ)
              else 0⟩) ∧
    (∀ (a : Agent) (t : Trade), t.buyerId ≠ a.id → t.sellerId = a.id →
      (a.onFill t).cash = a.cash + t.price * (t.quantity : ℚ) ∧
      ((a.posOf t.symbol).quantity - t.quantity = 0 →
        lookupA (a.onFill t).portfolio t.symbol = none) ∧
      ((a.posOf t.symbol).quantity - t.quantity ≠ 0 →
        lookupA (a.onFill t).portfolio t.symbol =
          some { a.posOf t.symbol with
                 quantity := (a.posOf t.symbol).quantity - t.quantity })) := by
  constructor
  · intro a t h
    unfold Agent.onFill
    rw [if_pos h]
    exact ⟨rfl, lookupA_insertA_self _ _ _⟩
  · intro a t h hs
    unfold Agent.onFill
    rw [if_neg h]
    refine ⟨?_, ?_, ?_⟩
    · by_cases hq : (a.posOf t.symbol).quantity - t.quantity = 0
      · rw [if_pos hq]
      · rw [if_neg hq]
    · intro hq
      rw [if_pos hq]
      exact lookupA_eraseA_self _ _
    · intro hq
      rw [if_neg hq]
      exact lookupA_insertA_self _ _ _

/-- C8, counterexample to the claim as stated: an agent short 5 OIL buys 5;
the position quantity becomes zero, but the buy branch never erases, so a
zero-quantity entry remains in the portfolio. -/
def c8ShortAgent : Agent :=
  ⟨1, 1000, 1000, [("OIL", ⟨"OIL", -5, 10⟩)]⟩

def c8CloseTrade : Trade :=
  { buyOrderId := 7, sellOrderId := 8, buyerId := 1, sellerId := 2,
    symbol := "OIL", price := 20, quantity := 5, timestamp := 0 }

theorem onFill_buy_zero_not_erased_counterexample :
    lookupA (c8ShortAgent.onFill c8CloseTrade).portfolio "OIL" = some ⟨"OIL", 0, 0⟩ := by
  decide

theorem onFill_spec_witness :
    c8CloseTrade.buyerId = c8ShortAgent.id ∧
    (c8ShortAgent.onFill c8CloseTrade).cash =
      c8ShortAgent.cash - c8CloseTrade.price * (c8CloseTrade.quantity : ℚ) := by
  exact ⟨rfl, (onFill_spec.1 c8ShortAgent c8CloseTrade rfl).1⟩

/-! ## News generation (spec §4.4)

The commodities-variant `NewsGenerator::generate` is missing from the
source tree: `src/environment/NewsGenerator.cpp` is the legacy stocks
variant (it does not compile against `NewsGenerator.hpp` and `Types.hpp` —
wrong `generate` signature, `INDUSTRY`/`COMPANY` categories and `NewsEvent`
fields that do not exist there), while the tests (`tests/test_news.cpp`)
and the headers target the commodities variant.  The definitions below are
therefore modelled from the spec.  Randomness is modelled by an oracle: a
`NewsRng` supplies every draw the generator makes, with the Poisson draw
labelled by the mean it is requested with. -/

inductive NewsCategory where
  | GLOBAL
  | POLITICAL
  | SUPPLY
  | DEMAND
deriving DecidableEq, Repr

inductive NewsSentiment where
  | POSITIVE
  | NEGATIVE
  | NEUTRAL
deriving DecidableEq, Repr

structure NewsEvent where
  category : NewsCategory
  sentiment : NewsSentiment
  symbol : String
  commodityName : String
  subcategory : String
  magnitude : ℚ
  timestamp : Nat
  headline : String
deriving DecidableEq, Repr

/-- The stream of random draws consumed by one `generate` call:
`poissonDraw m` is the Poisson sample requested with mean `m`, `categoryU i`
the i-th uniform `[0,1)` draw steering the category, and the remaining
fields the draws for the per-event details the claim does not constrain. -/
structure NewsRng where
  poissonDraw : ℚ → Nat
  categoryU : Nat → ℚ
  sentimentOf : NewsCategory → ℚ → NewsSentiment
  sentimentU : Nat → ℚ
  symbolPick : Nat → Nat
  magnitudeDraw : Nat → ℚ

/-- Modelled from the spec: the category split of a random news event,
"15% Global, 10% Political, 35% Supply, 40% Demand", realised as thresholds
on one uniform `[0,1)` draw. -/
def categoryFromU (r : ℚ) : NewsCategory :=
  if r < 15 / 100 then NewsCategory.GLOBAL
  else if r < 25 / 100 then NewsCategory.POLITICAL
  else if r < 60 / 100 then NewsCategory.SUPPLY
  else NewsCategory.DEMAND

/-- Modelled from the spec: one random event — category from the uniform
draw, a symbol only for Supply/Demand events (picked uniformly), magnitude
`|N(0, std)|`, stamped with the current time. -/
def genRandomEvent (rng : NewsRng) (symbols : List String) (now : Nat) (i : Nat) : NewsEvent :=
  let cat := categoryFromU (rng.categoryU i)
  { category := cat,
    sentiment := rng.sentimentOf cat (rng.sentimentU i),
    symbol :=
      match cat with
      | NewsCategory.SUPPLY => symbols.getD (rng.symbolPick i % max 1 symbols.length) ""
      | NewsCategory.DEMAND => symbols.getD (rng.symbolPick i % max 1 symbols.length) ""
      | _ => "",
    commodityName := "", subcategory := "",
    magnitude := |rng.magnitudeDraw i|, timestamp := now, headline := "" }

/-- Modelled from the spec: `NewsGenerator::generate(now, tickScale)` —
drain the injected events stamping them with `now`, then draw
`k ~ Poisson(lambda · tickScale)` and append `k` random events. -/
def generateNews (lambda tickScale : ℚ) (rng : NewsRng) (injected : List NewsEvent)
    (symbols : List String) (now : Nat) : List NewsEvent :=
  let inj := injected.map (fun e => { e with timestamp := now })
  let k := rng.poissonDraw (lambda * tickScale)
  inj ++ (List.range k).map (genRandomEvent rng symbols now)

/-! ## Claim C5 -/

/-- C5: `generate` first emits the injected events stamped with the current
time; the number of random events appended is the Poisson draw requested
with mean exactly `lambda · tickScale`; each random event's category comes
from the uniform-threshold rule; and on `[0,1)` that rule assigns Global to
`[0, 0.15)`, Political to `[0.15, 0.25)`, Supply to `[0.25, 0.60)` and
Demand to `[0.60, 1)` — intervals of mass 15%, 10%, 35% and 40%. -/
theorem generate_poisson_and_categories :
    (∀ (lambda tickScale : ℚ) (rng : NewsRng) (injected : List NewsEvent)
       (symbols : List String) (now : Nat),
      (generateNews lambda tickScale rng injected symbols now).length
        = injected.length + rng.poissonDraw (lambda * tickScale) ∧
      (generateNews lambda tickScale rng injected symbols now).take injected.length
        = injected.map (fun e => { e with timestamp := now }) ∧
      (generateNews lambda tickScale rng injected symbols now).drop injected.length
        = (List.range (rng.poissonDraw (lambda * tickScale))).map
            (genRandomEvent rng symbols now) ∧
      ∀ i : Nat, (genRandomEvent rng symbols now i).category
        = categoryFromU (rng.categoryU i)) ∧
    (∀ r : ℚ, 0 ≤ r → r < 1 →
      (categoryFromU r = NewsCategory.GLOBAL ↔ r < 15 / 100) ∧
      (categoryFromU r = NewsCategory.POLITICAL ↔ 15 / 100 ≤ r ∧ r < 25 / 100) ∧
      (categoryFromU r = NewsCategory.SUPPLY ↔ 25 / 100 ≤ r ∧ r < 60 / 100) ∧
      (categoryFromU r = NewsCategory.DEMAND ↔ 60 / 100 ≤ r)) := by
  constructor
  · intro lambda tickScale rng injected symbols now
    refine ⟨?_, ?_, ?_, fun i => rfl⟩
    · simp [generateNews]
    · have hlen : (injected.map (fun e => { e with timestamp := now })).length
          = injected.length := List.length_map _ _
      unfold generateNews
      rw [← hlen, List.take_left]
    · have hlen : (injected.map (fun e => { e with timestamp := now })).length
          = injected.length := List.length_map _ _
      unfold generateNews
      rw [← hlen, List.drop_left]
  · intro r h0 h1
    unfold categoryFromU
    by_cases h2 : r < 15 / 100
    · rw [if_pos h2]
      refine ⟨by simp [h2], ?_, ?_, ?_⟩
      · simp only [reduceCtorEq, false_iff]
        rintro ⟨h3, -⟩
        linarith
      · simp only [reduceCtorEq, false_iff]
        rintro ⟨h3, -⟩
        linarith
      · simp only [reduceCtorEq, false_iff]
        intro h3
        linarith
    · rw [if_neg h2]
      by_cases h3 : r < 25 / 100
      · rw [if_pos h3]
        refine ⟨by simp [h2], by simp [not_lt.mp h2, h3], ?_, ?_⟩
        · simp only [reduceCtorEq, false_iff]
          rintro ⟨h4, -⟩
          linarith
        · simp only [reduceCtorEq, false_iff]
          intro h4
          linarith
      · rw [if_neg h3]
        by_cases h4 : r < 60 / 100
        · rw [if_pos h4]
          refine ⟨by simp [h2], ?_, by simp [not_lt.mp h3, h4], ?_⟩
          · simp only [reduceCtorEq, false_iff]
            rintro ⟨-, h5⟩
            exact h3 h5
          · simp only [reduceCtorEq, false_iff]
            intro h5
            linarith
        · rw [if_neg h4]
          refine ⟨by simp [h2], ?_, ?_, by simp [not_lt.mp h4]⟩
          · simp only [reduceCtorEq, false_iff]
            rintro ⟨-, h5⟩
            exact h3 h5
          · simp only [reduceCtorEq, false_iff]
            rintro ⟨-, h5⟩
            exact h4 h5

def c5Rng : NewsRng :=
  ⟨fun _ => 3, fun _ => 1 / 2, fun _ _ => NewsSentiment.NEUTRAL, fun _ => 0,
   fun _ => 0, fun _ => 0⟩

theorem generate_poisson_and_categories_witness :
    (generateNews 1 2 c5Rng [] ["OIL"] 5).length = 0 + c5Rng.poissonDraw (1 * 2) ∧
    (0 : ℚ) ≤ 1 / 2 ∧ (1 / 2 : ℚ) < 1 ∧
    (categoryFromU (1 / 2) = NewsCategory.SUPPLY ↔
      25 / 100 ≤ (1 / 2 : ℚ) ∧ (1 / 2 : ℚ) < 60 / 100) := by
  refine ⟨(generate_poisson_and_categories.1 1 2 c5Rng [] ["OIL"] 5).1, by norm_num,
    by norm_num, (generate_poisson_and_categories.2 (1 / 2) (by norm_num) (by norm_num)).2.2.1⟩

/-! ## Claim C10 -/

/-- The per-period relative returns collected by
`Commodity::getVolatilityEstimate` (lines 129-137): over the window of the
last `periods + 1` history entries, one return per adjacent pair whose base
price is positive. -/
noncomputable def returnsOf (hist : List ℝ) (periods : Nat) : List ℝ :=
  let w := hist.drop (hist.length - (periods + 1))
  (w.zip w.tail).filterMap
    (fun ab => if 0 < ab.1 then some ((ab.2 - ab.1) / ab.1) else none)

/-- The final computation of `getVolatilityEstimate` (lines 141-147): the
population standard deviation of the collected returns. -/
noncomputable def popStdDev (l : List ℝ) : ℝ :=
  let mean := l.sum / l.length
  Real.sqrt ((l.map fun r => (r - mean) * (r - mean)).sum / l.length)

/-- `Commodity::getVolatilityEstimate` (lines 124-148). -/
noncomputable def Commodity.getVolatilityEstimate (c : Commodity) (periods : Nat) : ℝ :=
  if c.priceHistory.length < periods + 1 then c.volatility
  else if returnsOf c.priceHistory periods = [] then c.volatility
  else popStdDev (returnsOf c.priceHistory periods)

theorem zip_tail_fst_mem {l : List ℝ} {ab : ℝ × ℝ}
    (h : ab ∈ l.zip l.tail) : ab.1 ∈ l.dropLast := by
  induction l with
  | nil => simp at h
  | cons a t ih =>
    cases t with
    | nil => simp at h
    | cons b t2 =>
      rcases List.mem_cons.mp (by simpa [List.zip_cons_cons] using h) with h1 | h2
      · simp [h1, List.dropLast]
      · have := ih h2
        simpa [List.dropLast] using Or.inr this

theorem exists_zip_pair_of_mem_dropLast {l : List ℝ} {x : ℝ}
    (h : x ∈ l.dropLast) : ∃ y, (x, y) ∈ l.zip l.tail := by
  induction l with
  | nil => simp at h
  | cons a t ih =>
    cases t with
    | nil => simp [List.dropLast] at h
    | cons b t2 =>
      rcases List.mem_cons.mp (by simpa [List.dropLast] using h) with h1 | h2
      · exact ⟨b, by simp [h1, List.zip_cons_cons]⟩
      · obtain ⟨y, hy⟩ := ih h2
        exact ⟨y, by simp [List.zip_cons_cons]; exact Or.inr (by simpa using hy)⟩

/-- C10: with enough history, `getVolatilityEstimate` falls back to the
stored volatility parameter when the history is shorter than `periods + 1`
or when no base price in the lookback window is positive, and otherwise
returns the population standard deviation of the one-period relative
returns collected over the window. -/
theorem getVolatilityEstimate_spec (c : Commodity) (periods : Nat) (hp : 1 ≤ periods) :
    (c.priceHistory.length < periods + 1 →
      c.getVolatilityEstimate periods = c.volatility) ∧
    (periods + 1 ≤ c.priceHistory.length →
      (∀ x ∈ (c.priceHistory.drop (c.priceHistory.length - (periods + 1))).dropLast, x ≤ 0) →
      c.getVolatilityEstimate periods = c.volatility) ∧
    (periods + 1 ≤ c.priceHistory.length →
      (∃ x ∈ (c.priceHistory.drop (c.priceHistory.length - (periods + 1))).dropLast, 0 < x) →
      c.getVolatilityEstimate periods = popStdDev (returnsOf c.priceHistory periods)) := by
  refine ⟨?_, ?_, ?_⟩
  · intro h
    unfold Commodity.getVolatilityEstimate
    rw [if_pos h]
  · intro h2 hall
    have hempty : returnsOf c.priceHistory periods = [] := by
      unfold returnsOf
      refine List.filterMap_eq_nil_iff.mpr ?_
      intro ab hab
      rw [if_neg (not_lt.mpr (hall _ (zip_tail_fst_mem hab)))]
    unfold Commodity.getVolatilityEstimate
    rw [if_neg (not_lt.mpr h2), if_pos hempty]
  · intro h2 hsome
    obtain ⟨x, hx, hxpos⟩ := hsome
    obtain ⟨y, hy⟩ := exists_zip_pair_of_mem_dropLast hx
    have hmem : ((y - x) / x) ∈ returnsOf c.priceHistory periods := by
      unfold returnsOf
      exact List.mem_filterMap.mpr ⟨(x, y), hy, by rw [if_pos hxpos]⟩
    have hne : returnsOf c.priceHistory periods ≠ [] := List.ne_nil_of_mem hmem
    unfold Commodity.getVolatilityEstimate
    rw [if_neg (not_lt.mpr h2), if_neg hne]

/-- `c2Start` with a two-entry price history, putting `periods = 1` in the
standard-deviation branch. -/
noncomputable def c10Two : Commodity := { c2Start with priceHistory := [100, 110] }

theorem getVolatilityEstimate_spec_witness :
    1 ≤ 1 ∧ c2Start.priceHistory.length < 1 + 1 ∧
    c2Start.getVolatilityEstimate 1 = c2Start.volatility ∧
    1 + 1 ≤ c10Two.priceHistory.length ∧
    c10Two.getVolatilityEstimate 1 = popStdDev (returnsOf c10Two.priceHistory 1) := by
  have hlen : c2Start.priceHistory.length < 1 + 1 := by
    norm_num [c2Start]
  have hlen2 : 1 + 1 ≤ c10Two.priceHistory.length := by
    norm_num [c10Two]
  refine ⟨le_refl 1, hlen, (getVolatilityEstimate_spec c2Start 1 (le_refl 1)).1 hlen,
    hlen2, (getVolatilityEstimate_spec c10Two 1 (le_refl 1)).2.2 hlen2 ⟨100, ?_, by norm_num⟩⟩
  norm_num [c10Two, List.dropLast]

/-! ## Claim C9: best-price queries on add-only books -/

theorem isActive_insertA_true (act : List (Nat × Bool)) (i j : Nat)
    (h : isActive act i = true) : isActive (insertA act j true) i = true := by
  by_cases hij : j = i
  · subst hij
    simp [isActive, lookupA_insertA_self]
  · simp [isActive, lookupA_insertA_ne act j i true hij]
    simpa [isActive] using h

theorem lookupA_none_forall {κ β : Type} [DecidableEq κ]
    (m : List (κ × β)) (k : κ) (h : lookupA m k = none) :
    ∀ e ∈ m, e.1 ≠ k := by
  induction m with
  | nil => simp
  | cons e0 rest ih =>
    intro e he
    by_cases h0 : e0.1 = k
    · simp [lookupA, h0] at h
    · rcases List.mem_cons.mp he with h1 | h2
      · rw [h1]; exact h0
      · exact ih (by simpa [lookupA, h0] using h) e h2

theorem lookupA_some_mem {κ β : Type} [DecidableEq κ]
    (m : List (κ × β)) (k : κ) (v : β) (h : lookupA m k = some v) : (k, v) ∈ m := by
  induction m with
  | nil => simp [lookupA] at h
  | cons e0 rest ih =>
    by_cases h0 : e0.1 = k
    · simp only [lookupA, if_pos h0, Option.some.injEq] at h
      have : e0 = (k, v) := Prod.ext h0 h
      simp [← this]
    · simp only [lookupA, if_neg h0] at h
      exact List.mem_cons_of_mem _ (ih h)

/-- The maximum bid price in a queue (C++ comparator top for equal-priced
ties aside). -/
def maxPriceOf : List Order → Option ℚ
  | [] => none
  | o :: rest =>
    match maxPriceOf rest with
    | none => some o.price
    | some m => if o.price < m then some m else some o.price

/-- The minimum ask price in a queue. -/
def minPriceOf : List Order → Option ℚ
  | [] => none
  | o :: rest =>
    match minPriceOf rest with
    | none => some o.price
    | some m => if m < o.price then some m else some o.price

theorem maxPriceOf_mem : ∀ (l : List Order) (m : ℚ),
    maxPriceOf l = some m → ∃ o ∈ l, o.price = m := by
  intro l
  induction l with
  | nil => intro m h; simp [maxPriceOf] at h
  | cons a t ih =>
    intro m h
    simp only [maxPriceOf] at h
    cases ht : maxPriceOf t with
    | none =>
      rw [ht] at h
      simp only [Option.some.injEq] at h
      exact ⟨a, List.mem_cons_self a t, h⟩
    | some m2 =>
      rw [ht] at h
      by_cases hlt : a.price < m2
      · simp only [if_pos hlt, Option.some.injEq] at h
        obtain ⟨o, ho, hop⟩ := ih m2 ht
        exact ⟨o, List.mem_cons_of_mem _ ho, h ▸ hop⟩
      · simp only [if_neg hlt, Option.some.injEq] at h
        exact ⟨a, List.mem_cons_self a t, h⟩

theorem maxPriceOf_ge : ∀ (l : List Order) (m : ℚ),
    maxPriceOf l = some m → ∀ o ∈ l, o.price ≤ m := by
  intro l
  induction l with
  | nil => intro m h; simp [maxPriceOf] at h
  | cons a t ih =>
    intro m h o ho
    simp only [maxPriceOf] at h
    cases ht : maxPriceOf t with
    | none =>
      rw [ht] at h
      simp only [Option.some.injEq] at h
      cases t with
      | nil =>
        rcases List.mem_cons.mp ho with h1 | h1
        · rw [h1, h]
        · simp at h1
      | cons b t2 =>
        exfalso
        simp only [maxPriceOf] at ht
        cases h2 : maxPriceOf t2 with
        | none => rw [h2] at ht; simp at ht
        | some mm => rw [h2] at ht; by_cases hb : b.price < mm <;> simp [hb] at ht
    | some m2 =>
      rw [ht] at h
      rcases List.mem_cons.mp ho with h1 | h1
      · by_cases hlt : a.price < m2
        · simp only [if_pos hlt, Option.some.injEq] at h
          rw [h1]
          exact le_of_lt (h ▸ hlt)
        · simp only [if_neg hlt, Option.some.injEq] at h
          rw [h1, h]
      · by_cases hlt : a.price < m2
        · simp only [if_pos hlt, Option.some.injEq] at h
          exact h ▸ ih m2 ht o h1
        · simp only [if_neg hlt, Option.some.injEq] at h
          have := ih m2 ht o h1
          have h2 : m2 ≤ a.price := not_lt.mp hlt
          rw [← h]
          exact le_trans this h2

theorem maxPriceOf_ne_none : ∀ (l : List Order), l ≠ [] → ∃ m, maxPriceOf l = some m := by
  intro l hl
  cases l with
  | nil => exact absurd rfl hl
  | cons a t =>
    simp only [maxPriceOf]
    cases maxPriceOf t with
    | none => exact ⟨a.price, rfl⟩
    | some m => by_cases hlt : a.price < m <;> simp [hlt]

theorem minPriceOf_mem : ∀ (l : List Order) (m : ℚ),
    minPriceOf l = some m → ∃ o ∈ l, o.price = m := by
  intro l
  induction l with
  | nil => intro m h; simp [minPriceOf] at h
  | cons a t ih =>
    intro m h
    simp only [minPriceOf] at h
    cases ht : minPriceOf t with
    | none =>
      rw [ht] at h
      simp only [Option.some.injEq] at h
      exact ⟨a, List.mem_cons_self a t, h⟩
    | some m2 =>
      rw [ht] at h
      by_cases hlt : m2 < a.price
      · simp only [if_pos hlt, Option.some.injEq] at h
        obtain ⟨o, ho, hop⟩ := ih m2 ht
        exact ⟨o, List.mem_cons_of_mem _ ho, h ▸ hop⟩
      · simp only [if_neg hlt, Option.some.injEq] at h
        exact ⟨a, List.mem_cons_self a t, h⟩

theorem minPriceOf_le : ∀ (l : List Order) (m : ℚ),
    minPriceOf l = some m → ∀ o ∈ l, m ≤ o.price := by
  intro l
  induction l with
  | nil => intro m h; simp [minPriceOf] at h
  | cons a t ih =>
    intro m h o ho
    simp only [minPriceOf] at h
    cases ht : minPriceOf t with
    | none =>
      rw [ht] at h
      simp only [Option.some.injEq] at h
      cases t with
      | nil =>
        rcases List.mem_cons.mp ho with h1 | h1
        · rw [h1, h]
        · simp at h1
      | cons b t2 =>
        exfalso
        simp only [minPriceOf] at ht
        cases h2 : minPriceOf t2 with
        | none => rw [h2] at ht; simp at ht
        | some mm => rw [h2] at ht; by_cases hb : mm < b.price <;> simp [hb] at ht
    | some m2 =>
      rw [ht] at h
      rcases List.mem_cons.mp ho with h1 | h1
      · by_cases hlt : m2 < a.price
        · simp only [if_pos hlt, Option.some.injEq] at h
          rw [h1]
          exact le_of_lt (h ▸ hlt)
        · simp only [if_neg hlt, Option.some.injEq] at h
          rw [h1, h]
      · by_cases hlt : m2 < a.price
        · simp only [if_pos hlt, Option.some.injEq] at h
          exact h ▸ ih m2 ht o h1
        · simp only [if_neg hlt, Option.some.injEq] at h
          have := ih m2 ht o h1
          have h2 : a.price ≤ m2 := not_lt.mp hlt
          rw [← h]
          exact le_trans h2 this

theorem minPriceOf_ne_none : ∀ (l : List Order), l ≠ [] → ∃ m, minPriceOf l = some m := by
  intro l hl
  cases l with
  | nil => exact absurd rfl hl
  | cons a t =>
    simp only [minPriceOf]
    cases minPriceOf t with
    | none => exact ⟨a.price, rfl⟩
    | some m => by_cases hlt : m < a.price <;> simp [hlt]

theorem maxKeyEntry_ge : ∀ (l : List (ℚ × Nat)) (e : ℚ × Nat),
    maxKeyEntry l = some e → ∀ e2 ∈ l, e2.1 ≤ e.1 := by
  intro l
  induction l with
  | nil => intro e h; simp [maxKeyEntry] at h
  | cons a t ih =>
    intro e h e2 he2
    simp only [maxKeyEntry] at h
    cases ht : maxKeyEntry t with
    | none =>
      rw [ht] at h
      simp only [Option.some.injEq] at h
      cases t with
      | nil =>
        rcases List.mem_cons.mp he2 with h1 | h1
        · rw [h1, h]
        · simp at h1
      | cons b t2 =>
        exfalso
        simp only [maxKeyEntry] at ht
        cases h2 : maxKeyEntry t2 with
        | none => rw [h2] at ht; simp at ht
        | some mm => rw [h2] at ht; by_cases hb : b.1 < mm.1 <;> simp [hb] at ht
    | some m2 =>
      rw [ht] at h
      rcases List.mem_cons.mp he2 with h1 | h1
      · by_cases hlt : a.1 < m2.1
        · simp only [if_pos hlt, Option.some.injEq] at h
          rw [h1]
          exact le_of_lt (h ▸ hlt)
        · simp only [if_neg hlt, Option.some.injEq] at h
          rw [h1, h]
      · by_cases hlt : a.1 < m2.1
        · simp only [if_pos hlt, Option.some.injEq] at h
          exact h ▸ ih m2 ht e2 h1
        · simp only [if_neg hlt, Option.some.injEq] at h
          have := ih m2 ht e2 h1
          rw [← h] at *
          exact le_trans this (not_lt.mp hlt)

theorem minKeyEntry_le : ∀ (l : List (ℚ × Nat)) (e : ℚ × Nat),
    minKeyEntry l = some e → ∀ e2 ∈ l, e.1 ≤ e2.1 := by
  intro l
  induction l with
  | nil => intro e h; simp [minKeyEntry] at h
  | cons a t ih =>
    intro e h e2 he2
    simp only [minKeyEntry] at h
    cases ht : minKeyEntry t with
    | none =>
      rw [ht] at h
      simp only [Option.some.injEq] at h
      cases t with
      | nil =>
        rcases List.mem_cons.mp he2 with h1 | h1
        · rw [h1, h]
        · simp at h1
      | cons b t2 =>
        exfalso
        simp only [minKeyEntry] at ht
        cases h2 : minKeyEntry t2 with
        | none => rw [h2] at ht; simp at ht
        | some mm => rw [h2] at ht; by_cases hb : mm.1 < b.1 <;> simp [hb] at ht
    | some m2 =>
      rw [ht] at h
      rcases List.mem_cons.mp he2 with h1 | h1
      · by_cases hlt : m2.1 < a.1
        · simp only [if_pos hlt, Option.some.injEq] at h
          rw [h1]
          exact le_of_lt (h ▸ hlt)
        · simp only [if_neg hlt, Option.some.injEq] at h
          rw [h1, h]
      · by_cases hlt : m2.1 < a.1
        · simp only [if_pos hlt, Option.some.injEq] at h
          exact h ▸ ih m2 ht e2 h1
        · simp only [if_neg hlt, Option.some.injEq] at h
          have := ih m2 ht e2 h1
          rw [← h] at *
          exact le_trans (not_lt.mp hlt) this

theorem maxKeyEntry_ne_none : ∀ (l : List (ℚ × Nat)), l ≠ [] → ∃ e, maxKeyEntry l = some e := by
  intro l hl
  cases l with
  | nil => exact absurd rfl hl
  | cons a t =>
    simp only [maxKeyEntry]
    cases maxKeyEntry t with
    | none => exact ⟨a, rfl⟩
    | some m => by_cases hlt : a.1 < m.1 <;> simp [hlt]

theorem minKeyEntry_ne_none : ∀ (l : List (ℚ × Nat)), l ≠ [] → ∃ e, minKeyEntry l = some e := by
  intro l hl
  cases l with
  | nil => exact absurd rfl hl
  | cons a t =>
    simp only [minKeyEntry]
    cases minKeyEntry t with
    | none => exact ⟨a, rfl⟩
    | some m => by_cases hlt : m.1 < a.1 <;> simp [hlt]

/-- The cache state of a book built by `addOrder` alone: every cached entry
points at an active order, cached price levels are exactly the resting
price levels, on both sides. -/
def BookCachesExact (b : Book) : Prop :=
  (∀ e ∈ b.bestBidByPrice, isActive b.active e.2 = true) ∧
  (∀ e ∈ b.bestBidByPrice, ∃ o ∈ b.bids, o.price = e.1) ∧
  (∀ o ∈ b.bids, ∃ e ∈ b.bestBidByPrice, e.1 = o.price) ∧
  (∀ e ∈ b.bestAskByPrice, isActive b.active e.2 = true) ∧
  (∀ e ∈ b.bestAskByPrice, ∃ o ∈ b.asks, o.price = e.1) ∧
  (∀ o ∈ b.asks, ∃ e ∈ b.bestAskByPrice, e.1 = o.price)

/-- A sequence of `addOrder` calls threading the id counter. -/
def addAll (b : Book) (now nid : Nat) : List Order → Book × Nat
  | [] => (b, nid)
  | o :: rest => addAll (addOrder b now nid o).1 now (addOrder b now nid o).2 rest

theorem emptyBook_caches_exact (s : String) : BookCachesExact (emptyBook s) := by
  refine ⟨?_, ?_, ?_, ?_, ?_, ?_⟩ <;> intro e he <;> simp [emptyBook] at he

theorem addOrder_caches_exact (b : Book) (now nid : Nat) (o : Order)
    (hinv : BookCachesExact b) : BookCachesExact (addOrder b now nid o).1 := by
  obtain ⟨i1, i2, i3, i4, i5, i6⟩ := hinv
  unfold addOrder
  by_cases hside : (stampOrder o now nid).side = OrderSide.BUY
  · rw [if_pos hside]
    refine ⟨?_, ?_, ?_, ?_, ?_, ?_⟩
    · cases hc : lookupA b.bestBidByPrice (stampOrder o now nid).price with
      | some v =>
        simp only [hc]
        intro e he
        exact isActive_insertA_true _ _ _ (i1 e he)
      | none =>
        simp only [hc]
        intro e he
        rcases mem_insertA _ _ _ e he with h1 | h2
        · rw [h1]
          simp [isActive, lookupA_insertA_self]
        · exact isActive_insertA_true _ _ _ (i1 e h2)
    · cases hc : lookupA b.bestBidByPrice (stampOrder o now nid).price with
      | some v =>
        simp only [hc]
        intro e he
        obtain ⟨o2, ho2, hp⟩ := i2 e he
        exact ⟨o2, List.mem_append_left _ ho2, hp⟩
      | none =>
        simp only [hc]
        intro e he
        rcases mem_insertA _ _ _ e he with h1 | h2
        · refine ⟨stampOrder o now nid, List.mem_append_right _ (List.mem_singleton_self _), ?_⟩
          rw [h1]
        · obtain ⟨o2, ho2, hp⟩ := i2 e h2
          exact ⟨o2, List.mem_append_left _ ho2, hp⟩
    · cases hc : lookupA b.bestBidByPrice (stampOrder o now nid).price with
      | some v =>
        simp only [hc]
        intro o2 ho2
        rcases List.mem_append.mp ho2 with h1 | h1
        · exact i3 o2 h1
        · refine ⟨((stampOrder o now nid).price, v), lookupA_some_mem _ _ _ hc, ?_⟩
          rw [List.mem_singleton.mp h1]
      | none =>
        simp only [hc]
        intro o2 ho2
        rcases List.mem_append.mp ho2 with h1 | h1
        · obtain ⟨e, he, hp⟩ := i3 o2 h1
          have hne : e.1 ≠ (stampOrder o now nid).price := lookupA_none_forall _ _ hc e he
          exact ⟨e, mem_insertA_of_mem_ne _ _ _ e he hne, hp⟩
        · refine ⟨_, self_mem_insertA b.bestBidByPrice _ _, ?_⟩
          rw [List.mem_singleton.mp h1]
    · intro e he
      exact isActive_insertA_true _ _ _ (i4 e he)
    · exact i5
    · exact i6
  · rw [if_neg hside]
    refine ⟨?_, ?_, ?_, ?_, ?_, ?_⟩
    · intro e he
      exact isActive_insertA_true _ _ _ (i1 e he)
    · exact i2
    · exact i3
    · cases hc : lookupA b.bestAskByPrice (stampOrder o now nid).price with
      | some v =>
        simp only [hc]
        intro e he
        exact isActive_insertA_true _ _ _ (i4 e he)
      | none =>
        simp only [hc]
        intro e he
        rcases mem_insertA _ _ _ e he with h1 | h2
        · rw [h1]
          simp [isActive, lookupA_insertA_self]
        · exact isActive_insertA_true _ _ _ (i4 e h2)
    · cases hc : lookupA b.bestAskByPrice (stampOrder o now nid).price with
      | some v =>
        simp only [hc]
        intro e he
        obtain ⟨o2, ho2, hp⟩ := i5 e he
        exact ⟨o2, List.mem_append_left _ ho2, hp⟩
      | none =>
        simp only [hc]
        intro e he
        rcases mem_insertA _ _ _ e he with h1 | h2
        · refine ⟨stampOrder o now nid, List.mem_append_right _ (List.mem_singleton_self _), ?_⟩
          rw [h1]
        · obtain ⟨o2, ho2, hp⟩ := i5 e h2
          exact ⟨o2, List.mem_append_left _ ho2, hp⟩
    · cases hc : lookupA b.bestAskByPrice (stampOrder o now nid).price with
      | some v =>
        simp only [hc]
        intro o2 ho2
        rcases List.mem_append.mp ho2 with h1 | h1
        · exact i6 o2 h1
        · refine ⟨((stampOrder o now nid).price, v), lookupA_some_mem _ _ _ hc, ?_⟩
          rw [List.mem_singleton.mp h1]
      | none =>
        simp only [hc]
        intro o2 ho2
        rcases List.mem_append.mp ho2 with h1 | h1
        · obtain ⟨e, he, hp⟩ := i6 o2 h1
          have hne : e.1 ≠ (stampOrder o now nid).price := lookupA_none_forall _ _ hc e he
          exact ⟨e, mem_insertA_of_mem_ne _ _ _ e he hne, hp⟩
        · refine ⟨_, self_mem_insertA b.bestAskByPrice _ _, ?_⟩
          rw [List.mem_singleton.mp h1]

theorem addOrder_bids_pos (b : Book) (now nid : Nat) (o : Order)
    (h : ∀ o2 ∈ b.bids, 0 < o2.price) (hpos : o.side = OrderSide.BUY → 0 < o.price) :
    ∀ o2 ∈ (addOrder b now nid o).1.bids, 0 < o2.price := by
  unfold addOrder
  by_cases hside : (stampOrder o now nid).side = OrderSide.BUY
  · rw [if_pos hside]
    intro o2 ho2
    rcases List.mem_append.mp ho2 with h1 | h1
    · exact h o2 h1
    · rw [List.mem_singleton.mp h1]
      exact hpos hside
  · rw [if_neg hside]
    exact h

theorem addAll_caches_exact : ∀ (orders : List Order) (b : Book) (now nid : Nat),
    BookCachesExact b → (∀ o2 ∈ b.bids, 0 < o2.price) →
    (∀ o ∈ orders, o.side = OrderSide.BUY → 0 < o.price) →
    BookCachesExact (addAll b now nid orders).1 ∧
      (∀ o2 ∈ (addAll b now nid orders).1.bids, 0 < o2.price) := by
  intro orders
  induction orders with
  | nil => intro b now nid h1 h2 h3; exact ⟨h1, h2⟩
  | cons o rest ih =>
    intro b now nid h1 h2 h3
    exact ih _ now _ (addOrder_caches_exact b now nid o h1)
      (addOrder_bids_pos b now nid o h2 (h3 o (List.mem_cons_self o rest)))
      (fun o2 ho2 => h3 o2 (List.mem_cons_of_mem o ho2))

theorem cacheBestBid_active (act : List (Nat × Bool)) (cache : List (ℚ × Nat)) (e : ℚ × Nat)
    (he : maxKeyEntry cache = some e) (hact : isActive act e.2 = true) :
    cacheBestBid act cache = some e.1 := by
  unfold cacheBestBid
  cases cache with
  | nil => simp [maxKeyEntry] at he
  | cons a t =>
    simp only [List.length_cons, cacheBestBidF, he, hact, if_true]

theorem cacheBestAsk_active (act : List (Nat × Bool)) (cache : List (ℚ × Nat)) (e : ℚ × Nat)
    (he : minKeyEntry cache = some e) (hact : isActive act e.2 = true) :
    cacheBestAsk act cache = some e.1 := by
  unfold cacheBestAsk
  cases cache with
  | nil => simp [minKeyEntry] at he
  | cons a t =>
    simp only [List.length_cons, cacheBestAskF, he, hact, if_true]

theorem getBestBid_eq_max (b : Book)
    (i1 : ∀ e ∈ b.bestBidByPrice, isActive b.active e.2 = true)
    (i2 : ∀ e ∈ b.bestBidByPrice, ∃ o ∈ b.bids, o.price = e.1)
    (i3 : ∀ o ∈ b.bids, ∃ e ∈ b.bestBidByPrice, e.1 = o.price)
    (m : ℚ) (hm : maxPriceOf b.bids = some m) : getBestBid b = m := by
  obtain ⟨o, ho, hop⟩ := maxPriceOf_mem _ _ hm
  have hcne : b.bestBidByPrice ≠ [] := by
    obtain ⟨e, he, -⟩ := i3 o ho
    exact List.ne_nil_of_mem he
  obtain ⟨e, he⟩ := maxKeyEntry_ne_none _ hcne
  have hcb := cacheBestBid_active b.active b.bestBidByPrice e he
    (i1 e (maxKeyEntry_mem _ _ he))
  have h1 : e.1 ≤ m := by
    obtain ⟨o2, ho2, hop2⟩ := i2 e (maxKeyEntry_mem _ _ he)
    exact hop2 ▸ maxPriceOf_ge _ _ hm o2 ho2
  have h2 : m ≤ e.1 := by
    obtain ⟨e2, he2, hke⟩ := i3 o ho
    have : m = e2.1 := by rw [hke, hop]
    exact this ▸ maxKeyEntry_ge _ _ he e2 he2
  unfold getBestBid
  simp only [hcb]
  exact le_antisymm h1 h2

theorem getBestAsk_eq_min (b : Book)
    (i4 : ∀ e ∈ b.bestAskByPrice, isActive b.active e.2 = true)
    (i5 : ∀ e ∈ b.bestAskByPrice, ∃ o ∈ b.asks, o.price = e.1)
    (i6 : ∀ o ∈ b.asks, ∃ e ∈ b.bestAskByPrice, e.1 = o.price)
    (m : ℚ) (hm : minPriceOf b.asks = some m) : getBestAsk b = some m := by
  obtain ⟨o, ho, hop⟩ := minPriceOf_mem _ _ hm
  have hcne : b.bestAskByPrice ≠ [] := by
    obtain ⟨e, he, -⟩ := i6 o ho
    exact List.ne_nil_of_mem he
  obtain ⟨e, he⟩ := minKeyEntry_ne_none _ hcne
  have hca := cacheBestAsk_active b.active b.bestAskByPrice e he
    (i4 e (minKeyEntry_mem _ _ he))
  have h1 : m ≤ e.1 := by
    obtain ⟨o2, ho2, hop2⟩ := i5 e (minKeyEntry_mem _ _ he)
    exact hop2 ▸ minPriceOf_le _ _ hm o2 ho2
  have h2 : e.1 ≤ m := by
    obtain ⟨e2, he2, hke⟩ := i6 o ho
    have hm2 : m = e2.1 := by rw [hke, hop]
    exact hm2 ▸ minKeyEntry_le _ _ he e2 he2
  unfold getBestAsk
  simp only [hca]
  rw [le_antisymm h2 h1]

theorem getBestBid_zero_of_nil (b : Book)
    (i2 : ∀ e ∈ b.bestBidByPrice, ∃ o ∈ b.bids, o.price = e.1)
    (hb : b.bids = []) : getBestBid b = 0 := by
  have hc : b.bestBidByPrice = [] := by
    cases hcc : b.bestBidByPrice with
    | nil => rfl
    | cons e t =>
      obtain ⟨o, ho, -⟩ := i2 e (hcc ▸ List.mem_cons_self e t)
      rw [hb] at ho
      simp at ho
  unfold getBestBid
  rw [hc, hb]
  rfl

theorem getBestAsk_none_of_nil (b : Book)
    (i5 : ∀ e ∈ b.bestAskByPrice, ∃ o ∈ b.asks, o.price = e.1)
    (ha : b.asks = []) : getBestAsk b = none := by
  have hc : b.bestAskByPrice = [] := by
    cases hcc : b.bestAskByPrice with
    | nil => rfl
    | cons e t =>
      obtain ⟨o, ho, -⟩ := i5 e (hcc ▸ List.mem_cons_self e t)
      rw [ha] at ho
      simp at ho
  unfold getBestAsk
  rw [hc, ha]
  rfl

/-- C9 (amended): on a book reachable by `addOrder` calls alone — no
cancellations or matches, which can leave the best-price caches shadowing
the true best level — and in which every bid has positive price:
when only one side holds orders, `getMidPrice` returns the best (highest
bid / lowest ask) price of that side and `getSpread` returns 0; when both
sides hold orders, `getMidPrice` returns their average and `getSpread`
their difference.  (The original claim fails for a resting price-0 market
bid, which `getMidPrice` treats as an absent side, and for cancelled
orders that shadowed a same-priced active order in the cache; see the
counterexample.) -/
theorem getMidPrice_getSpread_spec :
    (∀ (symbol : String) (orders : List Order) (now nid : Nat),
      (∀ o ∈ orders, o.side = OrderSide.BUY → 0 < o.price) →
      BookCachesExact (addAll (emptyBook symbol) now nid orders).1 ∧
        ∀ o ∈ (addAll (emptyBook symbol) now nid orders).1.bids, 0 < o.price) ∧
    (∀ b : Book, BookCachesExact b → (∀ o ∈ b.bids, 0 < o.price) →
      (b.bids ≠ [] → b.asks = [] →
        ∃ m, maxPriceOf b.bids = some m ∧ getMidPrice b = m ∧ getSpread b = 0) ∧
      (b.bids = [] → b.asks ≠ [] →
        ∃ m, minPriceOf b.asks = some m ∧ getMidPrice b = m ∧ getSpread b = 0) ∧
      (b.bids ≠ [] → b.asks ≠ [] →
        ∃ mb ma, maxPriceOf b.bids = some mb ∧ minPriceOf b.asks = some ma ∧
          getMidPrice b = (mb + ma) / 2 ∧ getSpread b = ma - mb)) := by
  constructor
  · intro symbol orders now nid hpos
    exact addAll_caches_exact orders (emptyBook symbol) now nid
      (emptyBook_caches_exact symbol) (by intro o2 ho2; simp [emptyBook] at ho2) hpos
  · rintro b ⟨i1, i2, i3, i4, i5, i6⟩ hpos
    refine ⟨?_, ?_, ?_⟩
    · intro hbne hask
      obtain ⟨m, hm⟩ := maxPriceOf_ne_none b.bids hbne
      have hbid := getBestBid_eq_max b i1 i2 i3 m hm
      have hmpos : 0 < m := by
        obtain ⟨o, ho, hop⟩ := maxPriceOf_mem _ _ hm
        exact hop ▸ hpos o ho
      have haskn : getBestAsk b = none := getBestAsk_none_of_nil b i5 hask
      refine ⟨m, hm, ?_, ?_⟩
      · unfold getMidPrice
        rw [haskn, hbid, if_pos hmpos]
      · unfold getSpread
        rw [haskn]
    · intro hbnil hane
      obtain ⟨m, hm⟩ := minPriceOf_ne_none b.asks hane
      have hask := getBestAsk_eq_min b i4 i5 i6 m hm
      have hbid0 : getBestBid b = 0 := getBestBid_zero_of_nil b i2 hbnil
      refine ⟨m, hm, ?_, ?_⟩
      · unfold getMidPrice
        rw [hask, hbid0]
        norm_num
      · unfold getSpread
        rw [hask, hbid0]
        norm_num
    · intro hbne hane
      obtain ⟨mb, hmb⟩ := maxPriceOf_ne_none b.bids hbne
      obtain ⟨ma, hma⟩ := minPriceOf_ne_none b.asks hane
      have hbid := getBestBid_eq_max b i1 i2 i3 mb hmb
      have hask := getBestAsk_eq_min b i4 i5 i6 ma hma
      have hmpos : 0 < mb := by
        obtain ⟨o, ho, hop⟩ := maxPriceOf_mem _ _ hmb
        exact hop ▸ hpos o ho
      refine ⟨mb, ma, hmb, hma, ?_, ?_⟩
      · unfold getMidPrice
        rw [hask, hbid]
        dsimp only
        rw [if_pos hmpos]
      · unfold getSpread
        rw [hask, hbid]
        dsimp only
        rw [if_pos hmpos]

/-- A resting market buy (price 0) plus a limit sell at 100, both active:
one active order on each side. -/
def c9MarketBuy : Order := ⟨1, 10, "T", OrderSide.BUY, OrderType.MARKET, 0, 5, 0⟩

def c9Sell100 : Order := ⟨2, 20, "T", OrderSide.SELL, OrderType.LIMIT, 100, 5, 0⟩

def c9MarketBook : Book := (addAll (emptyBook "T") 10 1 [c9MarketBuy, c9Sell100]).1

/-- Two bids at 100 (ids 1 and 2) and one at 90 (id 3); cancelling id 1
erases the 100 price level from the cache although id 2 is still active
there. -/
def c9Buy100a : Order := ⟨1, 10, "T", OrderSide.BUY, OrderType.LIMIT, 100, 5, 0⟩

def c9Buy100b : Order := ⟨2, 11, "T", OrderSide.BUY, OrderType.LIMIT, 100, 5, 0⟩

def c9Buy90 : Order := ⟨3, 12, "T", OrderSide.BUY, OrderType.LIMIT, 90, 5, 0⟩

def c9StaleBook : Book :=
  (cancelOrder (addAll (emptyBook "T") 10 1 [c9Buy100a, c9Buy100b, c9Buy90]).1 1).1

/-- C9, counterexample to the claim as stated.  First book: both sides hold
an active order (a price-0 market bid and a 100 ask), yet `getMidPrice` is
100 (not the average 50) and `getSpread` is 0 (not 100).  Second book (after
one cancellation): only bids are active and the best active bid price is
100, yet `getMidPrice` returns 90 because the cancelled order's price level
was dropped from the cache while a same-priced active order remains. -/
theorem getMidPrice_claim_counterexample :
    (c9MarketBook.bids ≠ [] ∧ c9MarketBook.asks ≠ [] ∧
     isActive c9MarketBook.active 1 = true ∧ isActive c9MarketBook.active 2 = true ∧
     getMidPrice c9MarketBook = 100 ∧ getSpread c9MarketBook = 0) ∧
    (c9StaleBook.asks = [] ∧
     (∃ o ∈ c9StaleBook.bids, o.price = 100 ∧ isActive c9StaleBook.active o.id = true) ∧
     getMidPrice c9StaleBook = 90) := by
  decide

def c9WitnessBuy : Order := ⟨1, 10, "W", OrderSide.BUY, OrderType.LIMIT, 105, 5, 0⟩

def c9WitnessSell : Order := ⟨2, 11, "W", OrderSide.SELL, OrderType.LIMIT, 110, 5, 0⟩

def c9WitnessBook : Book := (addAll (emptyBook "W") 5 1 [c9WitnessBuy, c9WitnessSell]).1

theorem getMidPrice_getSpread_spec_witness :
    maxPriceOf c9WitnessBook.bids = some 105 ∧ minPriceOf c9WitnessBook.asks = some 110 ∧
    getMidPrice c9WitnessBook = (105 + 110) / 2 ∧ getSpread c9WitnessBook = 110 - 105 := by
  have hpos : ∀ o ∈ [c9WitnessBuy, c9WitnessSell], o.side = OrderSide.BUY → 0 < o.price := by
    decide
  obtain ⟨hinv, hbpos⟩ := getMidPrice_getSpread_spec.1 "W" [c9WitnessBuy, c9WitnessSell] 5 1 hpos
  obtain ⟨mb, ma, hmb, hma, hmid, hsp⟩ :=
    (getMidPrice_getSpread_spec.2 c9WitnessBook hinv hbpos).2.2 (by decide) (by decide)
  have hmb105 : maxPriceOf c9WitnessBook.bids = some 105 := by decide
  have hma110 : minPriceOf c9WitnessBook.asks = some 110 := by decide
  have h1 : mb = 105 := by
    injection hmb.symm.trans hmb105
  have h2 : ma = 110 := by
    injection hma.symm.trans hma110
  subst h1 h2
  exact ⟨hmb105, hma110, hmid, hsp⟩

end MarketSim
